import Mathlib

/-!
Verification development for the rsa-rs repository (an educational RSA
key-generation and bulk-encryption tool).

The Rust source is shallowly embedded:

* `BigInt`/`BigUint` values that the program uses are non-negative
  throughout (primes, totients, moduli, block values, byte lengths), so
  they are modelled as `Nat`; the one routine whose intermediate values
  go negative (`extended_euclid` / `mod_reverse`) is modelled over `Int`
  with `Int.tdiv`/`Int.tmod`, which agree with Rust's truncating `/` and
  sign-of-dividend `%` on `BigInt`.
* Byte streams are `List Nat` with every element `< 256`.
* Loops whose Rust termination argument is numeric are written with an
  explicit structural fuel argument, always instantiated so that the
  fuel is provably not exhausted on the call domain; this keeps every
  definition kernel-evaluable on concrete inputs.
* Panics (failed `assert!`/`assert_eq!`, `unwrap` on errors, and
  arithmetic underflow of `usize`/`u64` subtractions, which in release
  builds wraps and then makes the following write loop push an
  astronomical number of bytes) are modelled as `none`/failure.
* Randomness (witness draws, prime candidates) and wall-clock time are
  modelled nondeterministically: functions that consume randomness take
  the drawn values as arguments, and the prime searcher is modelled as
  an inductive possibility relation over those choices.
-/

/-! ## Little-endian byte serialization

`BigInt::from_bytes_le` and `BigInt::to_bytes_le` from num-bigint,
restricted to `Sign::Plus` magnitudes as used by the program.
`to_bytes_le` of zero yields the single byte `[0]`, as num-bigint does.
-/

def fromBytesLE (l : List Nat) : Nat := l.foldr (fun b acc => b + 256 * acc) 0

def digitsLEAux : Nat → Nat → List Nat
  | 0, _ => []
  | fuel+1, n => if n = 0 then [] else n % 256 :: digitsLEAux fuel (n / 256)

def digitsLE (n : Nat) : List Nat := digitsLEAux n n

def toBytesLE (n : Nat) : List Nat := if n = 0 then [0] else digitsLE n

/-- Fixed-width little-endian serialization: `u32::to_le_bytes` is
`leBytes 4` and `u64::to_le_bytes` is `leBytes 8`. -/
def leBytes : Nat → Nat → List Nat
  | 0, _ => []
  | k+1, n => n % 256 :: leBytes k (n / 256)

@[simp] theorem fromBytesLE_nil : fromBytesLE [] = 0 := rfl

@[simp] theorem fromBytesLE_cons (b : Nat) (l : List Nat) :
    fromBytesLE (b :: l) = b + 256 * fromBytesLE l := rfl

/-! ## Fast modular exponentiation

`RSA::fast_modular_exponent` from `src/rsa/prime_gen.rs`:

    let mut r: BigInt = One::one();
    while q != Zero::zero() {
        if q.bit(0) { r = (r * &a) % &n; }
        q >>= 1;
        a = (&a * &a) % &n;
    }
    r

The while loop runs once per bit of `q`, so fuel `q` is enough.  (Rust
`%` with modulus 0 would panic; every call in the program has `n ≥ 2`.)
-/

def fmeAux : Nat → Nat → Nat → Nat → Nat → Nat
  | 0, _, _, _, r => r
  | fuel+1, a, q, n, r =>
    if q = 0 then r
    else fmeAux fuel ((a * a) % n) (q / 2) n (if q % 2 = 1 then (r * a) % n else r)

def fast_modular_exponent (a q n : Nat) : Nat := fmeAux q a q n 1

/-! ## Bit length and the block size

`BigInt::bits` (number of bits of the magnitude, 0 for zero) and
`RSA::get_group_size_byte` from `src/rsa/mod.rs`:

    fn get_group_size_byte(n: &BigInt) -> usize {
        f64::pow(2 as f64, ((n.bits() as usize / 8) as f64).log2().ceil()) as usize / 2
    }

Note `n.bits() as usize / 8` is integer division, so this is
`2 ^ ceil(log2(floor(bits(n) / 8))) / 2`.  The `f64` pipeline is exact
for every argument the program can produce (the logarithm argument is
far below 2^53, and `log2` of 0 gives `-inf`, `2^(-inf) = 0`,
`0 as usize / 2 = 0`, matching `clog2 0 = 0` below).  `clog2 k` is
`ceil(log2 k)` for `k ≥ 1`, realized as the bit length of `k - 1`.
-/

def bitsAux : Nat → Nat → Nat
  | 0, _ => 0
  | fuel+1, n => if n = 0 then 0 else bitsAux fuel (n / 2) + 1

def bits (n : Nat) : Nat := bitsAux n n

def clog2 (k : Nat) : Nat := bits (k - 1)

def get_group_size_byte (m : Nat) : Nat := 2 ^ clog2 (bits m / 8) / 2

/-! ## Splitting a byte stream into blocks

`RSA::read_source` pulls one byte at a time and stops as soon as the
block has reached `bytes` bytes, so `process` consumes its input in
blocks of exactly `bytes` bytes (the final block may be shorter, and a
`bytes = 0` target still yields 1-byte blocks because the length check
runs after the first push). -/

def splitBlocksAux (g : Nat) : Nat → List Nat → List (List Nat)
  | _, [] => []
  | 0, s => [s]
  | fuel+1, s => s.take (max g 1) :: splitBlocksAux g fuel (s.drop (max g 1))

def splitBlocks (g : Nat) (s : List Nat) : List (List Nat) :=
  splitBlocksAux g s.length s

/-- Shape of a block list: every block has exactly `g` bytes except the
final one, which is non-empty and has at most `g` bytes. -/
def BlocksProfile (g : Nat) : List (List Nat) → Prop
  | [] => True
  | [b] => 1 ≤ b.length ∧ b.length ≤ g
  | b :: rest => b.length = g ∧ BlocksProfile g rest

/-! ## The block cipher pipeline

`RSA::process` from `src/rsa/mod.rs`.  The worker pool distributes the
per-block transform over `(index, key, block, mode)` messages and the
coordinator reassembles results sorted by index, asserting that every
index appears exactly once; the net effect on the output is the
in-order per-block map modelled here (the ordering guarantee of the
channel machinery is exactly what the sort + assert enforce).

Failure cases modelled as `none`:
* Decode input shorter than 8 bytes (`assert_eq!(n, 8, "Too small file!")`);
* a non-final block whose serialized transform exceeds `res_len_target`
  (the `usize` subtraction `res_len_target - res_data_len` underflows:
  panic in debug, an effectively unbounded zero-fill loop in release,
  and the subsequent `assert_eq!` could never pass);
* a Decode run whose decoded blocks exceed the recorded plaintext size
  (the `u64` subtraction in the zero-padding loop bound underflows).

`process` is only ever invoked with `Encode` or `Decode`; the dead
`Generate`/`Test` arms are modelled as failure.
-/

inductive RunMode
  | Generate
  | Encode
  | Decode
  | Test
deriving DecidableEq

structure Key where
  base : Nat
  m : Nat
deriving DecidableEq

def group_size (mode : RunMode) (m : Nat) : Nat :=
  get_group_size_byte m * (match mode with | RunMode.Decode => 2 | _ => 1)

def source_len_target (mode : RunMode) (m : Nat) : Nat := group_size mode m

def res_len_target (mode : RunMode) (m : Nat) : Nat :=
  match mode with
  | RunMode.Encode => group_size mode m * 2
  | _ => group_size mode m / 2

/-- One worker step of `RSA::process`: deserialize the block
little-endian, apply `fast_modular_exponent`, serialize, and pad
non-final blocks with zero bytes up to `resTarget`. -/
def transformBlock (resTarget : Nat) (key : Key) (isLast : Bool) (src : List Nat) :
    Option (List Nat) :=
  let data := fromBytesLE src
  let res := fast_modular_exponent data key.base key.m
  let res_data := toBytesLE res
  if isLast then some res_data
  else if res_data.length ≤ resTarget then
    some (res_data ++ List.replicate (resTarget - res_data.length) 0)
  else none

def transformBlocks (resTarget : Nat) (key : Key) :
    List (List Nat) → Option (List (List Nat))
  | [] => some []
  | [b] =>
    match transformBlock resTarget key true b with
    | none => none
    | some r => some [r]
  | b :: c :: rest =>
    match transformBlock resTarget key false b with
    | none => none
    | some r =>
      match transformBlocks resTarget key (c :: rest) with
      | none => none
      | some rs => some (r :: rs)

def process (mode : RunMode) (key : Key) (input : List Nat) : Option (List Nat) :=
  match mode with
  | RunMode.Encode =>
    let source_data := splitBlocks (source_len_target RunMode.Encode key.m) input
    let filesize_read := input.length
    let filesize_data := filesize_read
    match transformBlocks (res_len_target RunMode.Encode key.m) key source_data with
    | none => none
    | some res => some (leBytes 8 filesize_data ++ res.flatten)
  | RunMode.Decode =>
    if input.length < 8 then none
    else
      let filesize0 := fromBytesLE (input.take 8)
      let rest := input.drop 8
      let source_data := splitBlocks (source_len_target RunMode.Decode key.m) rest
      let filesize_read := (source_data.map List.length).sum
      let filesize_data := if filesize0 = 0 then filesize_read else filesize0
      match transformBlocks (res_len_target RunMode.Decode key.m) key source_data with
      | none => none
      | some res =>
        let total := (res.map List.length).sum
        if total ≤ filesize_data then
          some (res.flatten ++ List.replicate (filesize_data - total) 0)
        else none
  | _ => none

/-! ## Miller-Rabin

`RSA::miller_rabin` from `src/rsa/prime_gen.rs`.  The witness drawn in
round `i` is `gen_biguint_range(0, n - 2) + 2`, i.e. a uniform value in
`[2, n - 1]` (both bounds inclusive); the embedding takes the list of
drawn witnesses as an argument.

The odd-part loop `while d.bit(0) { d >>= 1 }` strips trailing *one*
bits; since `n` is odd at that point, `n - 1` is even and the loop does
nothing.  The squaring loop doubles `d` until `d ≥ n`; it is entered
with `d = n - 1 ≥ 2`, so fuel `n` is enough (a `d = 0` entry would.
loop forever in Rust; fuel exhaustion returns the running pass flag,
which is `false`). -/

def stripOnesAux : Nat → Nat → Nat
  | 0, d => d
  | fuel+1, d => if d % 2 = 1 then stripOnesAux fuel (d / 2) else d

def mrOddStrip (n : Nat) : Nat := stripOnesAux (n - 1) (n - 1)

def squareLoop (n : Nat) : Nat → Nat → Nat → Bool
  | 0, _, _ => false
  | fuel+1, m, d =>
    if d < n then
      (if m = n - 1 then true else squareLoop n fuel ((m * m) % n) (d * 2))
    else false

def mrRound (n a : Nat) : Bool :=
  let d := mrOddStrip n
  let m := fast_modular_exponent a d n
  if m = 1 then true else squareLoop n n m d

def miller_rabin (n : Nat) (witnesses : List Nat) : Bool :=
  if n = 0 then true
  else if n % 2 = 0 ∨ n = 1 then false
  else witnesses.all (fun a => mrRound n a)

/-- A run of `miller_rabin` with `rounds` random witnesses can return
`true`: witnesses are drawn from `[2, n - 1]`. -/
def millerRabinPasses (n rounds : Nat) : Prop :=
  ∃ ws : List Nat, ws.length = rounds ∧ (∀ a ∈ ws, 2 ≤ a ∧ a ≤ n - 1) ∧
    miller_rabin n ws = true

/-! ## One Miller-Rabin round as the specification words it

Modelled from the spec (section 4.1), for comparison with the code's
round: decompose `n - 1 = 2^s * d` with `d` odd, draw a witness `a`,
compute `x = a^d mod n`; pass if `x = 1`, otherwise examine
`x, x^2, x^4, ...` for `s` positions (that is, square up to `s - 1`
times) and pass iff one of them equals `n - 1`. -/

def specOddPartAux : Nat → Nat → Nat
  | 0, d => d
  | fuel+1, d => if d % 2 = 0 ∧ d ≠ 0 then specOddPartAux fuel (d / 2) else d

def specOddPart (x : Nat) : Nat := specOddPartAux x x

def specTwoAdicAux : Nat → Nat → Nat
  | 0, _ => 0
  | fuel+1, d => if d % 2 = 0 ∧ d ≠ 0 then specTwoAdicAux fuel (d / 2) + 1 else 0

def specTwoAdic (x : Nat) : Nat := specTwoAdicAux x x

def specSquareProbe (n : Nat) : Nat → Nat → Bool
  | 0, _ => false
  | count+1, x => if x = n - 1 then true else specSquareProbe n count ((x * x) % n)

def specMillerRabinRound (n a : Nat) : Bool :=
  let d := specOddPart (n - 1)
  let s := specTwoAdic (n - 1)
  let x := a ^ d % n
  if x = 1 then true else specSquareProbe n s x

/-! ## Extended Euclid and the modular inverse

`RSA::extended_euclid` and `RSA::mod_reverse` from `src/rsa/mod.rs`:

    fn extended_euclid(a, b, x, y) -> (BigInt, BigInt, BigInt) {
        if b.is_zero() { return (a, 1, 0); }
        let (d, x2, y2) = extended_euclid(b, &(a % b), y, x);
        return (d, y2, x2 - a / b * y2);
    }
    pub fn mod_reverse(a, b) -> BigInt {
        let d = extended_euclid(a, b, 0, 1);
        if d.0.is_one() { (d.1 % b + b) % b } else { 0 }
    }

Rust `BigInt` `/` truncates toward zero and `%` takes the dividend's
sign, i.e. `Int.tdiv` / `Int.tmod`.  The recursion strictly decreases
`|b|`, so fuel `|b| + 1` suffices.  The `x`/`y` parameters are carried
(and swapped) exactly as in the source, although the result never uses
them. -/

def extendedEuclidAux : Nat → Int → Int → Int → Int → Int × Int × Int
  | 0, a, _, _, _ => (a, 1, 0)
  | fuel+1, a, b, x, y =>
    if b = 0 then (a, 1, 0)
    else
      match extendedEuclidAux fuel b (Int.tmod a b) y x with
      | (d, x2, y2) => (d, y2, x2 - Int.tdiv a b * y2)

def extended_euclid (a b x y : Int) : Int × Int × Int :=
  extendedEuclidAux (b.natAbs + 1) a b x y

def mod_reverse (a b : Int) : Int :=
  match extended_euclid a b 0 1 with
  | (d, x, _) => if d = 1 then Int.tmod (Int.tmod x b + b) b else 0

/-! ## The prime searcher as a possibility relation

`RSA::generate_prime` and `RSA::generate_one_prime` from
`src/rsa/prime_gen.rs`, with randomness and wall-clock time abstracted
into nondeterminism:

* a worker (`generate_one_prime`) can return `Ok(x)` for any `x` in
  `[low, high)` for which a run of `miller_rabin` at the configured
  round count can answer `true`, and can return `Err(Timeout(t))` for
  any measured elapsed time `t` exceeding `time_max` (a slow machine
  may time out even when primes abound);
* the coordinator receives exactly `threads` results, pushes every
  `Ok` prime onto the process-wide cache (a `Vec` used as a stack; the
  head of the model list is the top), then pops one;
* on a fresh attempt the cache is empty - the non-empty case is served
  by the `cache_hit` path without spawning workers;
* if no worker succeeded: recurse when `retry` is set, otherwise
  surface `Err(Timeout(time_max))` - note the payload is the
  configured budget `self.time_max`, not the measured elapsed time.

The relation also records the per-attempt worker results, so that a
theorem can talk about the elapsed times of the run. -/

inductive PrimeError
  | Timeout (ms : Int)
deriving DecidableEq

structure GenCfg where
  rounds : Nat
  threads : Nat
  time_max : Int
  retry : Bool
deriving DecidableEq

inductive WorkerRes
  | ok (x : Nat)
  | err (elapsed : Int)
deriving DecidableEq

def workerPossible (low high rounds : Nat) (time_max : Int) : WorkerRes → Prop
  | WorkerRes.ok x => low ≤ x ∧ x < high ∧ millerRabinPasses x rounds
  | WorkerRes.err t => time_max < t

def okList : List WorkerRes → List Nat :=
  List.filterMap (fun r => match r with | WorkerRes.ok x => some x | _ => none)

inductive GenPrime (cfg : GenCfg) (low high : Nat) :
    List Nat → List (List WorkerRes) → Except PrimeError Nat × List Nat → Prop
  | cache_hit (x : Nat) (rest : List Nat) :
      GenPrime cfg low high (x :: rest) [] (Except.ok x, rest)
  | fresh (results : List WorkerRes) (x : Nat) (rest : List Nat)
      (hlen : results.length = cfg.threads)
      (hw : ∀ r ∈ results, workerPossible low high cfg.rounds cfg.time_max r)
      (hpop : (okList results).reverse = x :: rest) :
      GenPrime cfg low high [] [results] (Except.ok x, rest)
  | timeout (results : List WorkerRes)
      (hlen : results.length = cfg.threads)
      (hw : ∀ r ∈ results, workerPossible low high cfg.rounds cfg.time_max r)
      (hempty : okList results = [])
      (hretry : cfg.retry = false) :
      GenPrime cfg low high [] [results]
        (Except.error (PrimeError.Timeout cfg.time_max), [])
  | retry_step (results : List WorkerRes) (logs : List (List WorkerRes))
      (res : Except PrimeError Nat × List Nat)
      (hlen : results.length = cfg.threads)
      (hw : ∀ r ∈ results, workerPossible low high cfg.rounds cfg.time_max r)
      (hempty : okList results = [])
      (hretry : cfg.retry = true)
      (hrec : GenPrime cfg low high [] logs res) :
      GenPrime cfg low high [] (results :: logs) res

/-- Cache states reachable from process start (`PRIMES_CACHE` starts
empty), with the history of `(cfg, low, high)` calls that built them. -/
inductive CacheReach : List Nat → List (GenCfg × Nat × Nat) → Prop
  | init : CacheReach [] []
  | step (cfg : GenCfg) (low high : Nat) (c c2 : List Nat)
      (hist : List (GenCfg × Nat × Nat)) (logs : List (List WorkerRes))
      (res : Except PrimeError Nat) :
      CacheReach c hist →
      GenPrime cfg low high c logs (res, c2) →
      CacheReach c2 ((cfg, low, high) :: hist)

def cacheGood (c : List Nat) (hist : List (GenCfg × Nat × Nat)) : Prop :=
  ∀ x ∈ c, ∃ e ∈ hist, e.2.1 ≤ x ∧ x < e.2.2 ∧ millerRabinPasses x e.1.rounds

/-! ## Key generation as a possibility relation

`RSA::euler` and `RSA::generate_key` from `src/rsa/mod.rs`.  The
process-wide cache is threaded through the two prime draws and the
exponent loop; the `check_key_set` assertion `(d * e) % f == 1` must
hold for the call to return. -/

def euler (p q : Nat) : Nat := (p - 1) * (q - 1)

/-- The `loop { e = generate_prime(1, f); if gcd(f, e) = 1 break }`
of `generate_key`, relating the cache before the loop to the chosen
exponent and the cache after. -/
inductive PickE (cfg : GenCfg) (f : Nat) : List Nat → Nat → List Nat → Prop
  | found (c c2 : List Nat) (e : Nat) (logs : List (List WorkerRes))
      (hgen : GenPrime cfg 1 f c logs (Except.ok e, c2))
      (hgcd : Nat.gcd f e = 1) : PickE cfg f c e c2
  | again (c c2 c3 : List Nat) (e e2 : Nat) (logs : List (List WorkerRes))
      (hgen : GenPrime cfg 1 f c logs (Except.ok e, c2))
      (hgcd : Nat.gcd f e ≠ 1)
      (hrec : PickE cfg f c2 e2 c3) : PickE cfg f c e2 c3

/-- Possible results of `RSA::generate_key` on a fresh process (the
prime cache starts empty): two prime draws from
`[2^prime_min, 2^prime_max)`, an exponent draw from `[1, φ)` repeated
until coprime, the modular inverse, and the `check_key_set` assert. -/
def GenerateKeyPossible (cfg : GenCfg) (prime_min prime_max : Nat)
    (pub priv : Key) : Prop :=
  ∃ p q e c1 c2 c3 logs1 logs2,
    GenPrime cfg (2 ^ prime_min) (2 ^ prime_max) [] logs1 (Except.ok p, c1) ∧
    GenPrime cfg (2 ^ prime_min) (2 ^ prime_max) c1 logs2 (Except.ok q, c2) ∧
    PickE cfg (euler p q) c2 e c3 ∧
    ((mod_reverse (e : Int) (euler p q : Int)).toNat * e) % euler p q = 1 ∧
    pub = ⟨e, p * q⟩ ∧
    priv = ⟨(mod_reverse (e : Int) (euler p q : Int)).toNat, p * q⟩

/-! ## The key codec

`KeyData` (`src/rsa/keys/key_data.rs`), `KeyData::save`
(`key_writer.rs`) and `KeyData::from` / `KeyReader` (`key_reader.rs`).
Strings are modelled as byte lists.

Binary payload layout (`save`):

    u32_le len_base, u32_le len_m, base_le, m_le, mode[7] zero-padded,
    comment

With `base64_output` the payload goes through
`base64::write::EncoderWriter` (base64 0.13) wrapping a `KeyWriter`.
`save` calls `f.flush()`, which drains the encoder's complete output
into the `KeyWriter` buffer and triggers `KeyWriter::flush`: header,
newline, the buffered base64 split into 70-byte lines (each followed
by a newline), footer - all written to the file at that moment.  The
encoder still holds up to two residual payload bytes; they are encoded
only when the `EncoderWriter` is dropped, which appends the final
base64 group to the `KeyWriter` buffer *after* the file content was
already written, so the final `payload.length % 3` bytes never reach
the file.  `save_base64` models exactly the bytes that reach the file.

The reader (`KeyReader::new`) fails on files shorter than 4 bytes,
classifies the file as text iff the first 4 bytes are all ASCII
graphic, strips `-`-prefixed lines (a line containing "END" becomes
the footer, any other the header), concatenates the remaining lines
without newlines and base64-decodes them; `KeyData::from` then parses
the binary payload (out-of-range indexing into `data` is a panic,
modelled as `none`; the `mode` buffer is zero-filled when fewer than
7 bytes remain). -/

structure KeyDataM where
  mode : List Nat
  comment : List Nat
  base : Nat
  m : Nat
  header : List Nat
  footer : List Nat
deriving DecidableEq

def upperAscii (c : Nat) : Nat := if 97 ≤ c ∧ c ≤ 122 then c - 32 else c

def strBytes (s : String) : List Nat := s.data.map Char.toNat

def generate_header (mode : List Nat) : List Nat :=
  strBytes "-----BEGIN RSA-RS " ++ mode.map upperAscii ++ strBytes " KEY-----"

def generate_footer (mode : List Nat) : List Nat :=
  strBytes "-----END RSA-RS " ++ mode.map upperAscii ++ strBytes " KEY-----"

/-- The 7-byte role tag buffer `[0u8; 7]` zip-filled from the mode string. -/
def mode7 (mode : List Nat) : List Nat :=
  mode.take 7 ++ List.replicate (7 - (mode.take 7).length) 0

def keyPayload (k : KeyDataM) : List Nat :=
  leBytes 4 (toBytesLE k.base).length ++ leBytes 4 (toBytesLE k.m).length ++
    toBytesLE k.base ++ toBytesLE k.m ++ mode7 k.mode ++ k.comment

def b64Char (i : Nat) : Nat :=
  if i < 26 then 65 + i
  else if i < 52 then 97 + (i - 26)
  else if i < 62 then 48 + (i - 52)
  else if i = 62 then 43
  else 47

def b64encode : List Nat → List Nat
  | [] => []
  | [a] => [b64Char (a / 4), b64Char (a % 4 * 16), 61, 61]
  | [a, b] => [b64Char (a / 4), b64Char (a % 4 * 16 + b / 16), b64Char (b % 16 * 4), 61]
  | a :: b :: c :: rest =>
    b64Char (a / 4) :: b64Char (a % 4 * 16 + b / 16) ::
      b64Char (b % 16 * 4 + c / 64) :: b64Char (c % 64) :: b64encode rest

def b64CharVal (c : Nat) : Option Nat :=
  if 65 ≤ c ∧ c ≤ 90 then some (c - 65)
  else if 97 ≤ c ∧ c ≤ 122 then some (c - 97 + 26)
  else if 48 ≤ c ∧ c ≤ 57 then some (c - 48 + 52)
  else if c = 43 then some 62
  else if c = 47 then some 63
  else none

def b64decode : List Nat → Option (List Nat)
  | [] => some []
  | c1 :: c2 :: c3 :: c4 :: rest =>
    match b64CharVal c1, b64CharVal c2 with
    | some v1, some v2 =>
      if c3 = 61 ∧ c4 = 61 ∧ rest = [] then some [v1 * 4 + v2 / 16]
      else
        match b64CharVal c3 with
        | some v3 =>
          if c4 = 61 ∧ rest = [] then
            some [v1 * 4 + v2 / 16, v2 % 16 * 16 + v3 / 4]
          else
            match b64CharVal c4, b64decode rest with
            | some v4, some tail =>
              some ((v1 * 4 + v2 / 16) :: (v2 % 16 * 16 + v3 / 4) ::
                (v3 % 4 * 64 + v4) :: tail)
            | _, _ => none
        | none => none
    | _, _ => none
  | _ => none

def graphic (c : Nat) : Bool := 33 ≤ c && c ≤ 126

def effHeader (k : KeyDataM) : List Nat :=
  if k.header = [] ∧ k.footer = [] then generate_header k.mode else k.header

def effFooter (k : KeyDataM) : List Nat :=
  if k.header = [] ∧ k.footer = [] then generate_footer k.mode else k.footer

def save_binary (k : KeyDataM) : List Nat := keyPayload k

def save_base64 (k : KeyDataM) : List Nat :=
  effHeader k ++ [10] ++
    ((splitBlocks 70 (b64encode ((keyPayload k).take
      (3 * ((keyPayload k).length / 3))))).map (fun l => l ++ [10])).flatten ++
    effFooter k

def save (k : KeyDataM) (base64_output : Bool) : List Nat :=
  if base64_output then save_base64 k else save_binary k

def toLinesAux : Nat → List Nat → List (List Nat)
  | 0, _ => []
  | _, [] => []
  | fuel+1, l =>
    l.takeWhile (fun c => c ≠ 10) ::
      toLinesAux fuel ((l.dropWhile (fun c => c ≠ 10)).drop 1)

def toLines (l : List Nat) : List (List Nat) := toLinesAux l.length l

def hasEND : List Nat → Bool
  | [] => false
  | 69 :: 78 :: 68 :: _ => true
  | _ :: t => hasEND t

def parseLines : List (List Nat) →
    List Nat × List Nat × List Nat → List Nat × List Nat × List Nat
  | [], st => st
  | line :: rest, (res, hdr, ftr) =>
    if line.head? = some 45 then
      if hasEND line then parseLines rest (res, hdr, line)
      else parseLines rest (res, line, ftr)
    else parseLines rest (res ++ line, hdr, ftr)

def parse_text (file : List Nat) : List Nat × List Nat × List Nat :=
  parseLines (toLines file) ([], [], [])

def keyFromContent (content : List Nat) (hdr ftr : List Nat) : Option KeyDataM :=
  if fromBytesLE (content.take 4) + fromBytesLE ((content.drop 4).take 4) ≤
      (content.drop 8).length then
    some { mode :=
             ((content.drop 8).drop
               (fromBytesLE (content.take 4) +
                 fromBytesLE ((content.drop 4).take 4))).take 7 ++
             List.replicate (7 -
               (((content.drop 8).drop
                 (fromBytesLE (content.take 4) +
                   fromBytesLE ((content.drop 4).take 4))).take 7).length) 0,
           comment := (content.drop 8).drop
             (fromBytesLE (content.take 4) +
               fromBytesLE ((content.drop 4).take 4) + 7),
           base := fromBytesLE ((content.drop 8).take (fromBytesLE (content.take 4))),
           m := fromBytesLE ((((content.drop 8).drop
             (fromBytesLE (content.take 4)))).take
               (fromBytesLE ((content.drop 4).take 4))),
           header := hdr,
           footer := ftr }
  else none

def keyFromFile (file : List Nat) : Option KeyDataM :=
  if file.length < 4 then none
  else if (file.take 4).all graphic then
    match parse_text file with
    | (res, hdr, ftr) =>
      match b64decode res with
      | some content => keyFromContent content hdr ftr
      | none => none
  else keyFromContent file [] []

/-- The block size as the specification words it,
`B = 2^⌈log₂(⌈bits(m)/8⌉)⌉ / 2`: the byte length is the *ceiling*
`⌈bits(m)/8⌉`.  Modelled from the spec (not from the code, whose cast
truncates) for comparison with `get_group_size_byte`. -/
def specGroupSizeByte (m : Nat) : Nat := 2 ^ clog2 ((bits m + 7) / 8) / 2

theorem fromBytesLE_append (l1 l2 : List Nat) :
    fromBytesLE (l1 ++ l2) = fromBytesLE l1 + 256 ^ l1.length * fromBytesLE l2 := by
  induction l1 with
  | nil => simp
  | cons b t ih => simp [fromBytesLE_cons, ih, pow_succ]; ring

theorem fromBytesLE_lt (l : List Nat) (h : ∀ b ∈ l, b < 256) :
    fromBytesLE l < 256 ^ l.length := by
  induction l with
  | nil => simp
  | cons b t ih =>
    have hb : b < 256 := h b (by simp)
    have ht : fromBytesLE t < 256 ^ t.length := ih (fun x hx => h x (by simp [hx]))
    simp only [fromBytesLE_cons, List.length_cons, pow_succ]
    have : 256 ^ t.length * 256 = 256 * 256 ^ t.length := by ring
    rw [this]
    omega

theorem fromBytesLE_eq_zero (l : List Nat) (h : fromBytesLE l = 0) :
    ∀ b ∈ l, b = 0 := by
  induction l with
  | nil => simp
  | cons b t ih =>
    simp only [fromBytesLE_cons] at h
    intro x hx
    rw [List.mem_cons] at hx
    rcases hx with hx | hx
    · omega
    · exact ih (by omega) x hx

theorem digitsLEAux_congr : ∀ f1 f2 n, n ≤ f1 → n ≤ f2 →
    digitsLEAux f1 n = digitsLEAux f2 n := by
  intro f1
  induction f1 using Nat.strong_induction_on with
  | _ f1 ih =>
    intro f2 n h1 h2
    match f1, f2 with
    | 0, f2 =>
      have : n = 0 := by omega
      subst this
      match f2 with
      | 0 => rfl
      | f2+1 => simp [digitsLEAux]
    | f1+1, 0 =>
      have : n = 0 := by omega
      subst this
      simp [digitsLEAux]
    | f1+1, f2+1 =>
      simp only [digitsLEAux]
      by_cases hn : n = 0
      · simp [hn]
      · simp only [hn, if_false]
        have hdiv : n / 256 ≤ f1 := by omega
        have hdiv2 : n / 256 ≤ f2 := by omega
        rw [ih f1 (by omega) f2 (n / 256) hdiv hdiv2]

theorem digitsLE_zero : digitsLE 0 = [] := rfl

theorem digitsLE_succ (n : Nat) (h : n ≠ 0) :
    digitsLE n = n % 256 :: digitsLE (n / 256) := by
  match n with
  | 0 => omega
  | m+1 =>
    show digitsLEAux (m+1) (m+1) = _
    simp only [digitsLEAux, if_neg (by omega : ¬ m + 1 = 0)]
    congr 1
    exact digitsLEAux_congr m ((m+1)/256) ((m+1)/256) (by omega) le_rfl

theorem fromBytesLE_digitsLE (n : Nat) : fromBytesLE (digitsLE n) = n := by
  induction n using Nat.strong_induction_on with
  | _ n ih =>
    by_cases h : n = 0
    · simp [h, digitsLE_zero]
    · rw [digitsLE_succ n h, fromBytesLE_cons, ih (n / 256) (by omega)]
      omega

theorem digitsLE_mem_lt (n : Nat) : ∀ b ∈ digitsLE n, b < 256 := by
  induction n using Nat.strong_induction_on with
  | _ n ih =>
    by_cases h : n = 0
    · simp [h, digitsLE_zero]
    · rw [digitsLE_succ n h]
      intro b hb
      rw [List.mem_cons] at hb
      rcases hb with hb | hb
      · omega
      · exact ih (n / 256) (by omega) b hb

theorem digitsLE_length_le (n k : Nat) (h : n < 256 ^ k) :
    (digitsLE n).length ≤ k := by
  induction k generalizing n with
  | zero =>
    have : n = 0 := by simpa using h
    simp [this, digitsLE_zero]
  | succ k ih =>
    by_cases hn : n = 0
    · simp [hn, digitsLE_zero]
    · rw [digitsLE_succ n hn]
      simp only [List.length_cons, Nat.succ_le_succ_iff]
      apply ih
      rw [pow_succ] at h
      exact Nat.div_lt_of_lt_mul (by omega)

theorem toBytesLE_mem_lt (n : Nat) : ∀ b ∈ toBytesLE n, b < 256 := by
  unfold toBytesLE
  by_cases h : n = 0
  · simp [h]
  · simpa [h] using digitsLE_mem_lt n

theorem fromBytesLE_toBytesLE (n : Nat) : fromBytesLE (toBytesLE n) = n := by
  unfold toBytesLE
  by_cases h : n = 0
  · simp [h, fromBytesLE]
  · simpa [h] using fromBytesLE_digitsLE n

theorem toBytesLE_length_le (n k : Nat) (hk : 1 ≤ k) (h : n < 256 ^ k) :
    (toBytesLE n).length ≤ k := by
  unfold toBytesLE
  by_cases hn : n = 0
  · simpa [hn] using hk
  · simpa [hn] using digitsLE_length_le n k h

theorem toBytesLE_length_pos (n : Nat) : 1 ≤ (toBytesLE n).length := by
  unfold toBytesLE
  by_cases hn : n = 0
  · simp [hn]
  · rw [if_neg hn, digitsLE_succ n hn]
    simp

theorem digitsLE_fromBytesLE_pad (l : List Nat) (hb : ∀ b ∈ l, b < 256) :
    digitsLE (fromBytesLE l) ++
      List.replicate (l.length - (digitsLE (fromBytesLE l)).length) 0 = l := by
  induction l with
  | nil => simp [digitsLE_zero]
  | cons b t ih =>
    have hblt : b < 256 := hb b (by simp)
    have hbt : ∀ x ∈ t, x < 256 := fun x hx => hb x (by simp [hx])
    have hcons : fromBytesLE (b :: t) = b + 256 * fromBytesLE t := rfl
    by_cases hz : b + 256 * fromBytesLE t = 0
    · -- whole value is zero, so every byte of the block is zero
      have hb0 : b = 0 := by omega
      have hm0 : fromBytesLE t = 0 := by omega
      have hall : ∀ x ∈ t, x = 0 := fromBytesLE_eq_zero t hm0
      have ht0 : t = List.replicate t.length 0 := List.eq_replicate_of_mem hall
      rw [hcons, hz, digitsLE_zero]
      simp only [List.nil_append, List.length_nil, List.length_cons, Nat.sub_zero]
      conv_rhs => rw [hb0, ht0]
      rw [List.replicate_succ]
    · have hmod : (b + 256 * fromBytesLE t) % 256 = b := by omega
      have hdiv : (b + 256 * fromBytesLE t) / 256 = fromBytesLE t := by omega
      have hstep : digitsLE (b + 256 * fromBytesLE t) =
          b :: digitsLE (fromBytesLE t) := by
        rw [digitsLE_succ _ hz, hmod, hdiv]
      rw [hcons, hstep]
      simp only [List.cons_append, List.length_cons]
      have harith : t.length + 1 - ((digitsLE (fromBytesLE t)).length + 1) =
          t.length - (digitsLE (fromBytesLE t)).length := by omega
      rw [harith, ih hbt]

/-- Round-trip with right zero-padding: deserializing a non-empty byte
block and re-serializing, then padding with zero bytes back to the
original width, recovers the block exactly. -/
theorem toBytesLE_fromBytesLE_pad (l : List Nat) (hb : ∀ b ∈ l, b < 256)
    (hne : l ≠ []) :
    toBytesLE (fromBytesLE l) ++
      List.replicate (l.length - (toBytesLE (fromBytesLE l)).length) 0 = l := by
  by_cases hz : fromBytesLE l = 0
  · have hall : ∀ x ∈ l, x = 0 := fromBytesLE_eq_zero l hz
    have hl0 : l = List.replicate l.length 0 := List.eq_replicate_of_mem hall
    have h0 : toBytesLE (fromBytesLE l) = [0] := by rw [hz]; rfl
    rw [h0]
    have hlen : 1 ≤ l.length := by
      cases l with
      | nil => exact absurd rfl hne
      | cons x xs => simp
    conv_rhs => rw [hl0]
    simp only [List.length_singleton]
    have : l.length = 1 + (l.length - 1) := by omega
    rw [this, List.replicate_add, List.replicate_one]
    have h2 : 1 + (l.length - 1) - 1 = l.length - 1 := by omega
    rw [h2]
  · have : toBytesLE (fromBytesLE l) = digitsLE (fromBytesLE l) := by
      unfold toBytesLE
      rw [if_neg hz]
    rw [this]
    exact digitsLE_fromBytesLE_pad l hb

theorem fmeAux_correct : ∀ fuel a q n r, 1 ≤ q → q ≤ fuel → 1 ≤ n →
    fmeAux fuel a q n r = (r * a ^ q) % n := by
  intro fuel
  induction fuel using Nat.strong_induction_on with
  | _ fuel ih =>
    intro a q n r hq hfuel hn
    match fuel with
    | 0 => omega
    | fuel+1 =>
      simp only [fmeAux, if_neg (by omega : ¬ q = 0)]
      by_cases hq2 : q / 2 = 0
      · -- q = 1: one more recursive step immediately returns the accumulator
        have hq1 : q = 1 := by omega
        subst hq1
        have h12 : (1:Nat) / 2 = 0 := rfl
        have h1m : (1:Nat) % 2 = 1 := rfl
        rw [h12, h1m, if_pos rfl]
        have hbase : ∀ f a2, fmeAux f a2 0 n ((r * a) % n) = (r * a) % n := by
          intro f a2
          match f with
          | 0 => rfl
          | f+1 => simp [fmeAux]
        rw [hbase, pow_one]
      · have hrec := ih fuel (by omega) ((a * a) % n) (q / 2) n
          (if q % 2 = 1 then (r * a) % n else r) (by omega) (by omega) hn
        rw [hrec]
        have haa : (a * a) % n ≡ a * a [MOD n] := Nat.mod_modEq _ n
        have hr2 : (if q % 2 = 1 then (r * a) % n else r) ≡
            r * a ^ (q % 2) [MOD n] := by
          by_cases hpar : q % 2 = 1
          · rw [if_pos hpar, hpar, pow_one]
            exact Nat.mod_modEq _ n
          · have h0 : q % 2 = 0 := by omega
            rw [if_neg hpar, h0, pow_zero, mul_one]
        have hmain : (if q % 2 = 1 then (r * a) % n else r) *
            ((a * a) % n) ^ (q / 2) ≡ r * a ^ q [MOD n] := by
          have hsplit : q = q % 2 + 2 * (q / 2) := by omega
          calc (if q % 2 = 1 then (r * a) % n else r) * ((a * a) % n) ^ (q / 2)
              ≡ (r * a ^ (q % 2)) * (a * a) ^ (q / 2) [MOD n] :=
                hr2.mul (haa.pow _)
            _ = r * a ^ q := by
                conv_rhs => rw [hsplit]
                rw [pow_add, pow_mul, pow_two, mul_assoc]
        exact hmain

theorem fast_modular_exponent_zero (a n : Nat) :
    fast_modular_exponent a 0 n = 1 := rfl

theorem fast_modular_exponent_eq (a q n : Nat) (hq : 1 ≤ q) (hn : 1 ≤ n) :
    fast_modular_exponent a q n = a ^ q % n := by
  unfold fast_modular_exponent
  rw [fmeAux_correct q a q n 1 hq le_rfl hn, one_mul]

theorem bitsAux_congr : ∀ f1 f2 n, n ≤ f1 → n ≤ f2 →
    bitsAux f1 n = bitsAux f2 n := by
  intro f1
  induction f1 using Nat.strong_induction_on with
  | _ f1 ih =>
    intro f2 n h1 h2
    match f1, f2 with
    | 0, f2 =>
      have : n = 0 := by omega
      subst this
      match f2 with
      | 0 => rfl
      | f2+1 => simp [bitsAux]
    | f1+1, 0 =>
      have : n = 0 := by omega
      subst this
      simp [bitsAux]
    | f1+1, f2+1 =>
      simp only [bitsAux]
      by_cases hn : n = 0
      · simp [hn]
      · simp only [hn, if_false]
        rw [ih f1 (by omega) f2 (n / 2) (by omega) (by omega)]

theorem bits_zero : bits 0 = 0 := rfl

theorem bits_succ (n : Nat) (h : n ≠ 0) : bits n = bits (n / 2) + 1 := by
  match n with
  | 0 => omega
  | m+1 =>
    show bitsAux (m+1) (m+1) = _
    simp only [bitsAux, if_neg (by omega : ¬ m + 1 = 0)]
    congr 1
    exact bitsAux_congr m ((m+1)/2) ((m+1)/2) (by omega) le_rfl

theorem bits_le_iff (n : Nat) : ∀ k, bits n ≤ k ↔ n < 2 ^ k := by
  induction n using Nat.strong_induction_on with
  | _ n ih =>
    intro k
    by_cases hn : n = 0
    · subst hn
      simp [bits_zero, Nat.pos_pow_of_pos]
    · rw [bits_succ n hn]
      match k with
      | 0 =>
        constructor
        · omega
        · intro h
          have : n = 0 := by simpa using Nat.lt_one_iff.mp h
          omega
      | k+1 =>
        rw [Nat.succ_le_succ_iff, ih (n / 2) (by omega) k, pow_succ]
        omega

theorem lt_two_pow_bits (n : Nat) : n < 2 ^ bits n :=
  (bits_le_iff n (bits n)).mp le_rfl

theorem bits_pos (n : Nat) (h : 1 ≤ n) : 1 ≤ bits n := by
  by_contra hc
  have : bits n ≤ 0 := by omega
  have := (bits_le_iff n 0).mp this
  simp at this
  omega

theorem two_pow_pred_bits_le (n : Nat) (h : 1 ≤ n) : 2 ^ (bits n - 1) ≤ n := by
  by_contra hc
  push_neg at hc
  have := (bits_le_iff n (bits n - 1)).mpr hc
  have := bits_pos n h
  omega

theorem le_two_pow_clog2 (k : Nat) : k ≤ 2 ^ clog2 k := by
  unfold clog2
  have := lt_two_pow_bits (k - 1)
  omega

theorem clog2_pos (k : Nat) (h : 2 ≤ k) : 1 ≤ clog2 k := by
  unfold clog2
  exact bits_pos (k - 1) (by omega)

theorem two_pow_clog2_pred_lt (k : Nat) (h : 2 ≤ k) : 2 ^ (clog2 k - 1) < k := by
  unfold clog2
  have := two_pow_pred_bits_le (k - 1) (by omega)
  omega

theorem two_pow_div_two (c : Nat) (hc : 1 ≤ c) : 2 ^ c / 2 = 2 ^ (c - 1) := by
  match c with
  | c+1 =>
    rw [pow_succ, Nat.mul_div_cancel _ (by omega : 0 < 2)]
    rfl

theorem get_group_size_byte_eq_pow (m : Nat) (h : 2 ≤ bits m / 8) :
    get_group_size_byte m = 2 ^ (clog2 (bits m / 8) - 1) := by
  unfold get_group_size_byte
  exact two_pow_div_two _ (clog2_pos (bits m / 8) h)

theorem get_group_size_byte_pos (m : Nat) (h : 2 ≤ bits m / 8) :
    1 ≤ get_group_size_byte m := by
  rw [get_group_size_byte_eq_pow m h]
  exact Nat.pos_pow_of_pos _ (by omega)

/-- Every plaintext block of `B = get_group_size_byte m` bytes is a
value strictly below the modulus: `8·B + 8 ≤ bits m`. -/
theorem get_group_size_byte_mul8 (m : Nat) (h : 2 ≤ bits m / 8) :
    8 * get_group_size_byte m + 8 ≤ bits m := by
  have he := get_group_size_byte_eq_pow m h
  have h1 := two_pow_clog2_pred_lt (bits m / 8) h
  omega

theorem splitBlocksAux_nil (g : Nat) : ∀ f, splitBlocksAux g f [] = [] := by
  intro f
  cases f <;> rfl

theorem splitBlocksAux_congr (g : Nat) : ∀ f1 f2 (s : List Nat),
    s.length ≤ f1 → s.length ≤ f2 → splitBlocksAux g f1 s = splitBlocksAux g f2 s := by
  intro f1
  induction f1 using Nat.strong_induction_on with
  | _ f1 ih =>
    intro f2 s h1 h2
    match f1, f2, s with
    | a, b, [] => rw [splitBlocksAux_nil, splitBlocksAux_nil]
    | 0, _, x :: xs => simp at h1
    | f1+1, 0, x :: xs => simp at h2
    | f1+1, f2+1, x :: xs =>
      simp only [splitBlocksAux]
      congr 1
      have hg : 1 ≤ max g 1 := le_max_right g 1
      apply ih f1 (by omega) f2
      · rw [List.length_drop]
        simp only [List.length_cons] at h1 ⊢
        omega
      · rw [List.length_drop]
        simp only [List.length_cons] at h2 ⊢
        omega

theorem splitBlocks_nil (g : Nat) : splitBlocks g [] = [] := rfl

theorem splitBlocks_cons (g : Nat) (s : List Nat) (h : s ≠ []) :
    splitBlocks g s = s.take (max g 1) :: splitBlocks g (s.drop (max g 1)) := by
  match s with
  | [] => exact absurd rfl h
  | x :: xs =>
    show splitBlocksAux g (xs.length + 1) (x :: xs) = _
    simp only [splitBlocksAux]
    congr 1
    apply splitBlocksAux_congr
    · have := List.length_drop (max g 1) (x :: xs)
      simp only [List.length_cons] at this ⊢
      omega
    · exact le_rfl

theorem splitBlocks_flatten (g : Nat) (s : List Nat) :
    (splitBlocks g s).flatten = s := by
  generalize hlen : s.length = len
  induction len using Nat.strong_induction_on generalizing s with
  | _ len ih =>
    match s, hlen with
    | [], _ => rfl
    | x :: xs, hlen =>
      rw [splitBlocks_cons g (x :: xs) (by simp)]
      have hg : 1 ≤ max g 1 := le_max_right g 1
      have hdroplen : ((x :: xs).drop (max g 1)).length < len := by
        rw [List.length_drop]
        simp only [List.length_cons] at hlen ⊢
        omega
      rw [List.flatten_cons, ih _ hdroplen _ rfl, List.take_append_drop]

theorem splitBlocks_profile (g : Nat) (hg : 1 ≤ g) (s : List Nat) :
    BlocksProfile g (splitBlocks g s) := by
  generalize hlen : s.length = len
  induction len using Nat.strong_induction_on generalizing s with
  | _ len ih =>
    match s, hlen with
    | [], _ => exact trivial
    | x :: xs, hlen =>
      have hmax : max g 1 = g := by omega
      rw [splitBlocks_cons g (x :: xs) (by simp), hmax]
      by_cases hshort : (x :: xs).length ≤ g
      · have hdrop : (x :: xs).drop g = [] := by
          apply List.drop_eq_nil_of_le
          exact hshort
        rw [hdrop, splitBlocks_nil]
        show 1 ≤ ((x :: xs).take g).length ∧ ((x :: xs).take g).length ≤ g
        rw [List.length_take]
        simp only [List.length_cons] at hshort ⊢
        omega
      · push_neg at hshort
        have hrest : (x :: xs).drop g ≠ [] := by
          intro habs
          have := List.length_drop g (x :: xs)
          rw [habs] at this
          simp only [List.length_nil] at this
          omega
        have hdroplen : ((x :: xs).drop g).length < len := by
          rw [List.length_drop]
          simp only [List.length_cons] at hlen ⊢
          omega
        have hprofile := ih _ hdroplen _ rfl
        have htake : ((x :: xs).take g).length = g := by
          rw [List.length_take]
          omega
        match hrec : splitBlocks g ((x :: xs).drop g) with
        | [] =>
          exact absurd (by rw [← splitBlocks_flatten g ((x :: xs).drop g), hrec]; rfl)
            hrest
        | c :: cs =>
          rw [hrec] at hprofile
          exact ⟨htake, hprofile⟩

theorem splitBlocks_realign (g : Nat) (hg : 1 ≤ g) :
    ∀ bs : List (List Nat), BlocksProfile g bs → splitBlocks g bs.flatten = bs := by
  intro bs
  induction bs with
  | nil => intro _; rfl
  | cons b rest ih =>
    intro hp
    have hmax : max g 1 = g := by omega
    match rest with
    | [] =>
      obtain ⟨hb1, hb2⟩ := hp
      have hflat : ([b] : List (List Nat)).flatten = b := by simp
      rw [hflat]
      have hbne : b ≠ [] := by
        intro habs
        rw [habs] at hb1
        simp at hb1
      rw [splitBlocks_cons g b hbne, hmax, List.take_of_length_le hb2,
        List.drop_eq_nil_of_le hb2, splitBlocks_nil]
    | c :: cs =>
      obtain ⟨hb, hp2⟩ := hp
      have hflat : ((b :: c :: cs) : List (List Nat)).flatten =
          b ++ (c :: cs).flatten := rfl
      rw [hflat]
      have hbne : b ++ (c :: cs).flatten ≠ [] := by
        intro habs
        have : b = [] := by
          cases b with
          | nil => rfl
          | cons y ys => simp at habs
        rw [this] at hb
        simp at hb
        omega
      rw [splitBlocks_cons g _ hbne, hmax, List.take_left' hb,
        List.drop_left' hb, ih hp2]

theorem leBytes_length (k : Nat) : ∀ n, (leBytes k n).length = k := by
  induction k with
  | zero => intro n; rfl
  | succ k ih =>
    intro n
    show (n % 256 :: leBytes k (n / 256)).length = k + 1
    simp [ih]

theorem leBytes_mem_lt (k : Nat) : ∀ n, ∀ b ∈ leBytes k n, b < 256 := by
  induction k with
  | zero => intro n b hb; simp [leBytes] at hb
  | succ k ih =>
    intro n b hb
    show b < 256
    rw [show leBytes (k+1) n = n % 256 :: leBytes k (n / 256) from rfl,
      List.mem_cons] at hb
    rcases hb with hb | hb
    · omega
    · exact ih (n / 256) b hb

theorem fromBytesLE_leBytes (k : Nat) : ∀ n, fromBytesLE (leBytes k n) = n % 256 ^ k := by
  induction k with
  | zero => intro n; simp [leBytes, fromBytesLE, Nat.mod_one]
  | succ k ih =>
    intro n
    rw [show leBytes (k+1) n = n % 256 :: leBytes k (n / 256) from rfl,
      fromBytesLE_cons, ih (n / 256)]
    have hb : 0 < 256 ^ k := Nat.pos_pow_of_pos k (by omega)
    have h1 : n % 256 < 256 := Nat.mod_lt _ (by omega)
    have h2 : n / 256 % 256 ^ k < 256 ^ k := Nat.mod_lt _ hb
    have hx : n % 256 + 256 * (n / 256 % 256 ^ k) < 256 * 256 ^ k := by omega
    have key : (256 * 256 ^ k) * (n / 256 / 256 ^ k) +
        (n % 256 + 256 * (n / 256 % 256 ^ k)) = n := by
      have e1 := Nat.div_add_mod (n / 256) (256 ^ k)
      have e2 := Nat.div_add_mod n 256
      calc (256 * 256 ^ k) * (n / 256 / 256 ^ k) +
          (n % 256 + 256 * (n / 256 % 256 ^ k))
          = 256 * (256 ^ k * (n / 256 / 256 ^ k) + n / 256 % 256 ^ k) + n % 256 := by
            ring
        _ = 256 * (n / 256) + n % 256 := by rw [e1]
        _ = n := e2
    rw [pow_succ, mul_comm (256 ^ k) 256]
    conv_rhs => rw [← key]
    rw [Nat.mul_add_mod, Nat.mod_eq_of_lt hx]

theorem splitBlocks_byte_lt (g : Nat) (s : List Nat) (hs : ∀ b ∈ s, b < 256) :
    ∀ blk ∈ splitBlocks g s, ∀ x ∈ blk, x < 256 := by
  intro blk hblk x hx
  apply hs
  rw [← splitBlocks_flatten g s]
  exact List.mem_flatten.mpr ⟨blk, hblk, hx⟩

theorem splitBlocks_length_sum (g : Nat) (s : List Nat) :
    ((splitBlocks g s).map List.length).sum = s.length := by
  conv_rhs => rw [← splitBlocks_flatten g s]
  rw [List.length_flatten]

theorem stripOnesAux_even : ∀ fuel d, d % 2 = 0 → stripOnesAux fuel d = d := by
  intro fuel d hd
  cases fuel with
  | zero => rfl
  | succ f => simp [stripOnesAux, hd]

theorem mrOddStrip_eq (n : Nat) (hodd : n % 2 = 1) : mrOddStrip n = n - 1 := by
  unfold mrOddStrip
  exact stripOnesAux_even (n - 1) (n - 1) (by omega)

theorem squareLoop_done (n : Nat) : ∀ fuel m d, n ≤ d → squareLoop n fuel m d = false := by
  intro fuel m d hd
  cases fuel with
  | zero => rfl
  | succ f => simp [squareLoop, if_neg (by omega : ¬ d < n)]

theorem squareLoop_succ (n fuel m d : Nat) :
    squareLoop n (fuel+1) m d =
      if d < n then
        (if m = n - 1 then true else squareLoop n fuel ((m * m) % n) (d * 2))
      else false := rfl

/-- The squaring loop entered at `d = n - 1` makes exactly one
comparison with `n - 1`: the doubled `d` is at least `n` already. -/
theorem squareLoop_at_pred (n m : Nat) (h3 : 3 ≤ n) :
    squareLoop n n m (n - 1) = (if m = n - 1 then true else false) := by
  match n, h3 with
  | k+3, _ =>
    show squareLoop (k+3) ((k+2)+1) m ((k+3) - 1) = _
    rw [squareLoop_succ, if_pos (by omega : (k+3) - 1 < k+3)]
    by_cases hm : m = (k+3) - 1
    · rw [if_pos hm, if_pos hm]
    · rw [if_neg hm, if_neg hm]
      exact squareLoop_done (k+3) (k+2) _ (((k+3) - 1) * 2) (by omega)

/-- One round of the code's test is a Fermat-type test: with `n` odd,
the exponent is the unshifted `n - 1` and the round passes iff
`a^(n-1) mod n` is `1` or `n - 1`. -/
theorem mrRound_eq (n a : Nat) :
    mrRound n a =
      if fast_modular_exponent a (mrOddStrip n) n = 1 then true
      else squareLoop n n (fast_modular_exponent a (mrOddStrip n) n) (mrOddStrip n) :=
  rfl

theorem mrRound_iff (n a : Nat) (hodd : n % 2 = 1) (h3 : 3 ≤ n) :
    mrRound n a = true ↔ (a ^ (n-1) % n = 1 ∨ a ^ (n-1) % n = n - 1) := by
  rw [mrRound_eq]
  rw [mrOddStrip_eq n hodd,
    fast_modular_exponent_eq a (n-1) n (by omega) (by omega)]
  by_cases h : a ^ (n-1) % n = 1
  · simp [h]
  · rw [if_neg h, squareLoop_at_pred n _ h3]
    by_cases h2 : a ^ (n-1) % n = n - 1
    · simp [h, h2]
    · simp [h, h2]

theorem miller_rabin_iff (n : Nat) (ws : List Nat) (hodd : n % 2 = 1) (h3 : 3 ≤ n) :
    miller_rabin n ws = true ↔
      ∀ a ∈ ws, a ^ (n-1) % n = 1 ∨ a ^ (n-1) % n = n - 1 := by
  unfold miller_rabin
  rw [if_neg (by omega : ¬ n = 0), if_neg (by omega : ¬ (n % 2 = 0 ∨ n = 1))]
  rw [List.all_eq_true]
  constructor
  · intro h a ha
    exact (mrRound_iff n a hodd h3).mp (h a ha)
  · intro h a ha
    exact (mrRound_iff n a hodd h3).mpr (h a ha)

/-- The witness `a = n - 1` passes a round for every odd `n ≥ 3`,
because `(n-1)^2 ≡ 1 (mod n)` and `n - 1` is even. -/
theorem pred_pow_pred_mod (n : Nat) (hodd : n % 2 = 1) (h3 : 3 ≤ n) :
    (n - 1) ^ (n - 1) % n = 1 := by
  have hsq : (n - 1) * (n - 1) % n = 1 := by
    have : (n - 1) * (n - 1) = n * (n - 2) + 1 := by
      match n, h3 with
      | j+3, _ =>
        show (j+2) * (j+2) = (j+3) * (j+1) + 1
        ring
    rw [this, Nat.mul_add_mod]
    exact Nat.mod_eq_of_lt (by omega)
  have heven : n - 1 = 2 * ((n - 1) / 2) := by omega
  calc (n - 1) ^ (n - 1) % n
      = ((n - 1) ^ 2) ^ ((n - 1) / 2) % n := by rw [← pow_mul, ← heven]
    _ = (((n - 1) ^ 2) % n) ^ ((n - 1) / 2) % n := by rw [Nat.pow_mod]
    _ = 1 := by
        rw [pow_two, hsq, one_pow]
        exact Nat.mod_eq_of_lt (by omega)

theorem millerRabinPasses_of_odd (n rounds : Nat) (hodd : n % 2 = 1) (h3 : 3 ≤ n) :
    millerRabinPasses n rounds := by
  refine ⟨List.replicate rounds (n - 1), by simp, ?_, ?_⟩
  · intro a ha
    have := List.eq_of_mem_replicate ha
    subst this
    omega
  · rw [miller_rabin_iff n _ hodd h3]
    intro a ha
    have := List.eq_of_mem_replicate ha
    subst this
    left
    exact pred_pow_pred_mod n hodd h3

theorem extendedEuclidAux_succ (fuel : Nat) (a b x y : Int) :
    extendedEuclidAux (fuel+1) a b x y =
      if b = 0 then (a, 1, 0)
      else
        match extendedEuclidAux fuel b (Int.tmod a b) y x with
        | (d, x2, y2) => (d, y2, x2 - Int.tdiv a b * y2) := rfl

theorem tmod_neg_left (a b : Int) : Int.tmod (-a) b = - Int.tmod a b := by
  rw [Int.tmod_def, Int.tmod_def, Int.neg_tdiv]
  ring

theorem neg_lt_tmod (a : Int) {b : Int} (hb : 0 < b) : -b < Int.tmod a b := by
  by_cases ha : 0 ≤ a
  · have := Int.tmod_nonneg b ha
    omega
  · push_neg at ha
    have h1 : Int.tmod a b = - Int.tmod (-a) b := by
      rw [← tmod_neg_left]
      simp
  -- `tmod (-a) b < b` with `-a > 0`
    have h2 := Int.tmod_lt_of_pos (-a) hb
    omega

theorem natAbs_tmod_eq (a b : Int) (ha : 0 ≤ a) (hb : 0 ≤ b) :
    Int.tmod a b = ((a.natAbs % b.natAbs : Nat) : Int) := by
  rw [Int.ofNat_tmod]
  congr 1
  · exact (Int.natAbs_of_nonneg ha).symm
  · exact (Int.natAbs_of_nonneg hb).symm

theorem gcd_tmod_step (a b : Int) (ha : 0 ≤ a) (hb : 0 < b) :
    Int.gcd b (Int.tmod a b) = Int.gcd a b := by
  unfold Int.gcd
  rw [natAbs_tmod_eq a b ha (by omega)]
  rw [Int.natAbs_ofNat]
  rw [Nat.gcd_comm]
  rw [← Nat.gcd_rec]
  exact Nat.gcd_comm _ _

theorem extendedEuclidAux_correct : ∀ fuel (a b x y : Int), 0 ≤ a → 0 ≤ b →
    b.natAbs < fuel →
    (extendedEuclidAux fuel a b x y).1 = (Int.gcd a b : Int) ∧
    a * (extendedEuclidAux fuel a b x y).2.1 +
      b * (extendedEuclidAux fuel a b x y).2.2 = (Int.gcd a b : Int) := by
  intro fuel
  induction fuel using Nat.strong_induction_on with
  | _ fuel ih =>
    intro a b x y ha hb hfuel
    match fuel with
    | 0 => omega
    | fuel+1 =>
      by_cases hbz : b = 0
      · subst hbz
        rw [extendedEuclidAux_succ, if_pos rfl]
        constructor
        · show a = _
          rw [Int.gcd_zero_right, Int.natAbs_of_nonneg ha]
        · show a * 1 + 0 * 0 = _
          rw [Int.gcd_zero_right, Int.natAbs_of_nonneg ha]
          ring
      · have hbpos : 0 < b := by omega
        have hm0 : 0 ≤ Int.tmod a b := Int.tmod_nonneg b ha
        have hmlt : Int.tmod a b < b := Int.tmod_lt_of_pos a hbpos
        have hmfuel : (Int.tmod a b).natAbs < fuel := by omega
        have IH := ih fuel (by omega) b (Int.tmod a b) y x (by omega) hm0 hmfuel
        have hgcd := gcd_tmod_step a b ha hbpos
        rw [extendedEuclidAux_succ, if_neg hbz]
        rcases hres : extendedEuclidAux fuel b (Int.tmod a b) y x with ⟨d, x2, y2⟩
        rw [hres] at IH
        simp only at IH ⊢
        obtain ⟨IH1, IH2⟩ := IH
        constructor
        · rw [IH1, hgcd]
        · have hsub : a - b * Int.tdiv a b = Int.tmod a b := by
            have := Int.tdiv_add_tmod a b
            linarith
          calc a * y2 + b * (x2 - Int.tdiv a b * y2)
              = b * x2 + (a - b * Int.tdiv a b) * y2 := by ring
            _ = b * x2 + Int.tmod a b * y2 := by rw [hsub]
            _ = (Int.gcd b (Int.tmod a b) : Int) := IH2
            _ = (Int.gcd a b : Int) := by rw [hgcd]

theorem extended_euclid_correct (a b x y : Int) (ha : 0 ≤ a) (hb : 0 ≤ b) :
    (extended_euclid a b x y).1 = (Int.gcd a b : Int) ∧
    a * (extended_euclid a b x y).2.1 + b * (extended_euclid a b x y).2.2 =
      (Int.gcd a b : Int) :=
  extendedEuclidAux_correct (b.natAbs + 1) a b x y ha hb (by omega)

theorem tmod_emod (z c : Int) : (Int.tmod z c) % c = z % c := by
  have h := Int.tdiv_add_tmod z c
  have h2 : Int.tmod z c = z + c * (-(Int.tdiv z c)) := by linarith
  rw [h2, Int.add_mul_emod_self_left]

theorem int_gcd_natCast (e f : Nat) : Int.gcd (e : Int) (f : Int) = Nat.gcd e f := by
  unfold Int.gcd
  rw [Int.natAbs_ofNat, Int.natAbs_ofNat]

theorem mod_reverse_spec (e f : Nat) (hf : 1 < f) (hco : Nat.gcd e f = 1) :
    0 ≤ mod_reverse (e : Int) (f : Int) ∧ mod_reverse (e : Int) (f : Int) < f ∧
    (mod_reverse (e : Int) (f : Int) * e) % (f : Int) = 1 ∧
    ∃ x y : Int, extended_euclid (e : Int) (f : Int) 0 1 = (1, x, y) ∧
      (e : Int) * x + (f : Int) * y = 1 ∧
      mod_reverse (e : Int) (f : Int) = Int.tmod (Int.tmod x f + f) f := by
  obtain ⟨h1, h2⟩ := extended_euclid_correct (e : Int) (f : Int) 0 1
    (Int.ofNat_nonneg e) (Int.ofNat_nonneg f)
  rw [int_gcd_natCast, hco] at h1 h2
  rcases hres : extended_euclid (e : Int) (f : Int) 0 1 with ⟨d, x, y⟩
  rw [hres] at h1 h2
  simp only at h1 h2
  norm_num at h1
  have hval : mod_reverse (e : Int) (f : Int) = Int.tmod (Int.tmod x f + f) f := by
    unfold mod_reverse
    rw [hres]
    simp [h1]
  have hfpos : (0 : Int) < f := by exact_mod_cast Nat.lt_of_lt_of_le Nat.zero_lt_one hf.le
  have hinner : 0 ≤ Int.tmod x f + f := by
    have := neg_lt_tmod x hfpos
    omega
  have hemod : Int.tmod (Int.tmod x f + f) f = (Int.tmod x f + f) % f :=
    Int.tmod_eq_emod hinner (by omega)
  have hv_eq : mod_reverse (e : Int) (f : Int) = x % f := by
    rw [hval, hemod]
    have : Int.tmod x f + f = Int.tmod x f + f * 1 := by ring
    rw [this, Int.add_mul_emod_self_left, tmod_emod]
  refine ⟨?_, ?_, ?_, x, y, ?_, ?_, hval⟩
  · rw [hv_eq]
    exact Int.emod_nonneg x (by omega)
  · rw [hv_eq]
    exact Int.emod_lt_of_pos x hfpos
  · rw [hv_eq]
    have hx : (x % (f : Int)) * e % f = (x * e) % f := by
      conv_lhs => rw [Int.mul_emod]
      conv_rhs => rw [Int.mul_emod]
      rw [Int.emod_emod]
    rw [hx]
    have hxe : x * e = 1 + (f : Int) * (-y) := by
      have : (e : Int) * x + f * y = 1 := by rw [h2]; norm_num
      linarith [this]
    rw [hxe, Int.add_mul_emod_self_left]
    exact Int.emod_eq_of_lt (by omega) (by exact_mod_cast hf)
  · rw [h1]
  · have : (e : Int) * x + f * y = 1 := by rw [h2]; norm_num
    exact this

theorem mod_reverse_not_coprime (e f : Nat) (hco : Nat.gcd e f ≠ 1) :
    mod_reverse (e : Int) (f : Int) = 0 := by
  obtain ⟨h1, _⟩ := extended_euclid_correct (e : Int) (f : Int) 0 1
    (Int.ofNat_nonneg e) (Int.ofNat_nonneg f)
  rw [int_gcd_natCast] at h1
  unfold mod_reverse
  rcases hres : extended_euclid (e : Int) (f : Int) 0 1 with ⟨d, x, y⟩
  rw [hres] at h1
  simp only at h1
  have hd : d ≠ 1 := by
    rw [h1]
    intro habs
    apply hco
    exact_mod_cast habs
  simp only [if_neg hd]

theorem okList_mem (results : List WorkerRes) (y : Nat) :
    y ∈ okList results → WorkerRes.ok y ∈ results := by
  intro hy
  unfold okList at hy
  rw [List.mem_filterMap] at hy
  obtain ⟨r, hr, hfy⟩ := hy
  match r, hfy with
  | WorkerRes.ok x, hfy =>
    have hxy : x = y := by simpa using hfy
    subst hxy
    exact hr
  | WorkerRes.err t, hfy => simp at hfy

/-- Where a `generate_prime` success and the updated cache entries come
from: the current workers (in range, Miller-Rabin passed at the current
round count) or the pre-existing cache. -/
theorem genPrime_sources (cfg : GenCfg) (low high : Nat) (c : List Nat)
    (logs : List (List WorkerRes)) (res : Except PrimeError Nat × List Nat)
    (h : GenPrime cfg low high c logs res) :
    (∀ x, res.1 = Except.ok x →
      (x ∈ c ∨ (low ≤ x ∧ x < high ∧ millerRabinPasses x cfg.rounds))) ∧
    (∀ y ∈ res.2, y ∈ c ∨ (low ≤ y ∧ y < high ∧ millerRabinPasses y cfg.rounds)) := by
  induction h with
  | cache_hit x rest =>
    constructor
    · intro z hz
      simp only [Except.ok.injEq] at hz
      subst hz
      left
      exact List.mem_cons_self x rest
    · intro y hy
      left
      exact List.mem_cons_of_mem x hy
  | fresh results x rest hlen hw hpop =>
    have hmem : ∀ y, y ∈ okList results →
        low ≤ y ∧ y < high ∧ millerRabinPasses y cfg.rounds := by
      intro y hy
      have := hw (WorkerRes.ok y) (okList_mem results y hy)
      exact this
    constructor
    · intro z hz
      simp only [Except.ok.injEq] at hz
      subst hz
      right
      apply hmem
      rw [← List.mem_reverse, hpop]
      exact List.mem_cons_self _ _
    · intro y hy
      right
      apply hmem
      rw [← List.mem_reverse, hpop]
      exact List.mem_cons_of_mem x hy
  | timeout results hlen hw hempty hretry =>
    constructor
    · intro z hz
      simp at hz
    · intro y hy
      simp at hy
  | retry_step results logs res hlen hw hempty hretry hrec ih =>
    obtain ⟨ih1, ih2⟩ := ih
    constructor
    · intro z hz
      rcases ih1 z hz with hc | hg
      · simp at hc
      · right; exact hg
    · intro y hy
      rcases ih2 y hy with hc | hg
      · simp at hc
      · right; exact hg

theorem cacheReach_good (c : List Nat) (hist : List (GenCfg × Nat × Nat))
    (h : CacheReach c hist) : cacheGood c hist := by
  induction h with
  | init => intro x hx; simp at hx
  | step cfg low high c c2 hist logs res hreach hgen ih =>
    intro x hx
    have := (genPrime_sources cfg low high c logs (res, c2) hgen).2 x hx
    rcases this with hold | hnew
    · obtain ⟨e, he, hprop⟩ := ih x hold
      exact ⟨e, List.mem_cons_of_mem _ he, hprop⟩
    · exact ⟨(cfg, low, high), List.mem_cons_self _ _, hnew⟩

/-! ## RSA correctness over a squarefree modulus -/

theorem rsa_identity (p q ed : Nat) (hp : p.Prime) (hq : q.Prime) (hpq : p ≠ q)
    (hed : ed ≡ 1 [MOD (p - 1) * (q - 1)]) (x : Nat) :
    x ^ ed ≡ x [MOD p * q] := by
  have hp2 := hp.two_le
  have hq2 := hq.two_le
  have h3 : 3 ≤ p ∨ 3 ≤ q := by omega
  have hphi : 2 ≤ (p - 1) * (q - 1) := by
    rcases h3 with h | h
    · calc 2 = 2 * 1 := rfl
        _ ≤ (p - 1) * (q - 1) := Nat.mul_le_mul (by omega) (by omega)
    · calc 2 = 1 * 2 := rfl
        _ ≤ (p - 1) * (q - 1) := Nat.mul_le_mul (by omega) (by omega)
  have hed1 : 1 ≤ ed := by
    by_contra hc
    have hed0 : ed = 0 := by omega
    subst hed0
    have : 0 % ((p - 1) * (q - 1)) = 1 % ((p - 1) * (q - 1)) := hed
    rw [Nat.zero_mod, Nat.mod_eq_of_lt hphi] at this
    omega
  obtain ⟨k, hk⟩ := (Nat.modEq_iff_dvd' hed1).mp hed.symm
  have hkk : ed = (p - 1) * (q - 1) * k + 1 := by omega
  have hmod : ∀ r s : Nat, r.Prime → ed = (r - 1) * s + 1 → x ^ ed ≡ x [MOD r] := by
    intro r s hr hes
    haveI : Fact r.Prime := ⟨hr⟩
    rw [← ZMod.natCast_eq_natCast_iff]
    push_cast
    by_cases hX : (x : ZMod r) = 0
    · rw [hX, zero_pow (by omega : ed ≠ 0)]
    · have hfer : (x : ZMod r) ^ (r - 1) = 1 := ZMod.pow_card_sub_one_eq_one hX
      rw [hes, pow_add, pow_mul, hfer, one_pow, pow_one, one_mul]
  have hmodp : x ^ ed ≡ x [MOD p] :=
    hmod p ((q - 1) * k) hp (by rw [hkk]; ring)
  have hmodq : x ^ ed ≡ x [MOD q] :=
    hmod q ((p - 1) * k) hq (by rw [hkk]; ring)
  have hco : Nat.Coprime p q := (Nat.coprime_primes hp hq).mpr hpq
  exact (Nat.modEq_and_modEq_iff_modEq_mul hco).mp ⟨hmodp, hmodq⟩

theorem rsa_identity_mod (p q e d x : Nat) (hp : p.Prime) (hq : q.Prime)
    (hpq : p ≠ q) (hed : e * d ≡ 1 [MOD (p - 1) * (q - 1)]) (hx : x < p * q) :
    (x ^ e % (p * q)) ^ d % (p * q) = x := by
  have h1 : (x ^ e % (p * q)) ^ d % (p * q) = x ^ (e * d) % (p * q) := by
    rw [← Nat.pow_mod, ← pow_mul]
  rw [h1]
  have h2 := rsa_identity p q (e * d) hp hq hpq hed x
  have h3 : x ^ (e * d) % (p * q) = x % (p * q) := h2
  rw [h3, Nat.mod_eq_of_lt hx]

/-- `e * d ≡ 1 mod φ` with `φ ≥ 2` forces both exponents positive. -/
theorem exponents_pos (p q e d : Nat) (hp : p.Prime) (hq : q.Prime) (hpq : p ≠ q)
    (hed : e * d ≡ 1 [MOD (p - 1) * (q - 1)]) : 1 ≤ e ∧ 1 ≤ d := by
  have hp2 := hp.two_le
  have hq2 := hq.two_le
  have h3 : 3 ≤ p ∨ 3 ≤ q := by omega
  have hphi : 2 ≤ (p - 1) * (q - 1) := by
    rcases h3 with h | h
    · calc 2 = 2 * 1 := rfl
        _ ≤ (p - 1) * (q - 1) := Nat.mul_le_mul (by omega) (by omega)
    · calc 2 = 1 * 2 := rfl
        _ ≤ (p - 1) * (q - 1) := Nat.mul_le_mul (by omega) (by omega)
  have hed1 : 1 ≤ e * d := by
    by_contra hc
    have hed0 : e * d = 0 := by omega
    have : 0 % ((p - 1) * (q - 1)) = 1 % ((p - 1) * (q - 1)) := hed0 ▸ hed
    rw [Nat.zero_mod, Nat.mod_eq_of_lt hphi] at this
    omega
  constructor
  · by_contra hc
    have : e = 0 := by omega
    subst this
    simp at hed1
  · by_contra hc
    have : d = 0 := by omega
    subst this
    simp at hed1

/-! ## Helper equations for the pipeline -/

theorem fme_eq_pow_mod (a q m : Nat) (hm : 2 ≤ m) :
    fast_modular_exponent a q m = a ^ q % m := by
  by_cases hq : q = 0
  · subst hq
    rw [fast_modular_exponent_zero, pow_zero, Nat.mod_eq_of_lt (by omega)]
  · exact fast_modular_exponent_eq a q m (by omega) (by omega)

theorem source_len_encode (m : Nat) :
    source_len_target RunMode.Encode m = get_group_size_byte m := by
  show get_group_size_byte m * 1 = get_group_size_byte m
  ring

theorem res_len_encode (m : Nat) :
    res_len_target RunMode.Encode m = 2 * get_group_size_byte m := by
  show get_group_size_byte m * 1 * 2 = 2 * get_group_size_byte m
  ring

theorem source_len_decode (m : Nat) :
    source_len_target RunMode.Decode m = 2 * get_group_size_byte m := by
  show get_group_size_byte m * 2 = 2 * get_group_size_byte m
  ring

theorem res_len_decode (m : Nat) :
    res_len_target RunMode.Decode m = get_group_size_byte m := by
  show get_group_size_byte m * 2 / 2 = get_group_size_byte m
  omega

theorem transformBlock_last (resTarget : Nat) (key : Key) (src : List Nat) :
    transformBlock resTarget key true src =
      some (toBytesLE (fast_modular_exponent (fromBytesLE src) key.base key.m)) := rfl

theorem transformBlock_mid (resTarget : Nat) (key : Key) (src : List Nat) :
    transformBlock resTarget key false src =
      (if (toBytesLE (fast_modular_exponent (fromBytesLE src) key.base key.m)).length
          ≤ resTarget then
        some (toBytesLE (fast_modular_exponent (fromBytesLE src) key.base key.m) ++
          List.replicate (resTarget -
            (toBytesLE (fast_modular_exponent (fromBytesLE src) key.base key.m)).length) 0)
      else none) := rfl

theorem transformBlocks_nil (resTarget : Nat) (key : Key) :
    transformBlocks resTarget key [] = some [] := rfl

theorem transformBlocks_single (resTarget : Nat) (key : Key) (b : List Nat) :
    transformBlocks resTarget key [b] =
      match transformBlock resTarget key true b with
      | none => none
      | some r => some [r] := rfl

theorem transformBlocks_cons (resTarget : Nat) (key : Key) (b c : List Nat)
    (rest : List (List Nat)) :
    transformBlocks resTarget key (b :: c :: rest) =
      match transformBlock resTarget key false b with
      | none => none
      | some r =>
        match transformBlocks resTarget key (c :: rest) with
        | none => none
        | some rs => some (r :: rs) := rfl

theorem fromBytesLE_append_zeros (l : List Nat) (k : Nat) :
    fromBytesLE (l ++ List.replicate k 0) = fromBytesLE l := by
  rw [fromBytesLE_append]
  have : fromBytesLE (List.replicate k 0) = 0 := by
    induction k with
    | zero => rfl
    | succ j ih => rw [List.replicate_succ, fromBytesLE_cons, ih]
  rw [this]
  ring

/-! ## Round-trip of the per-block transform -/

theorem transform_roundtrip_last (e d n B : Nat) (hB : 1 ≤ B) (hn2 : 2 ≤ n)
    (hlt : 256 ^ B ≤ n) (hub : n ≤ 256 ^ (2 * B))
    (hRSA : ∀ x, x < n → (x ^ e % n) ^ d % n = x)
    (b : List Nat) (hb1 : 1 ≤ b.length) (hb2 : b.length ≤ B)
    (hbb : ∀ x ∈ b, x < 256) :
    ∃ c dd : List Nat,
      transformBlock (2 * B) ⟨e, n⟩ true b = some c ∧
      1 ≤ c.length ∧ c.length ≤ 2 * B ∧ (∀ x ∈ c, x < 256) ∧
      transformBlock B ⟨d, n⟩ true c = some dd ∧
      dd.length ≤ b.length ∧
      dd ++ List.replicate (b.length - dd.length) 0 = b := by
  have hbne : b ≠ [] := by
    intro habs
    rw [habs] at hb1
    simp at hb1
  have hx : fromBytesLE b < n := by
    calc fromBytesLE b < 256 ^ b.length := fromBytesLE_lt b hbb
      _ ≤ 256 ^ B := Nat.pow_le_pow_right (by omega) hb2
      _ ≤ n := hlt
  have hy : fromBytesLE b ^ e % n < n := Nat.mod_lt _ (by omega)
  refine ⟨toBytesLE (fromBytesLE b ^ e % n), toBytesLE (fromBytesLE b), ?_, ?_, ?_, ?_, ?_, ?_, ?_⟩
  · rw [transformBlock_last]
    rw [fme_eq_pow_mod _ _ _ hn2]
  · exact toBytesLE_length_pos _
  · exact toBytesLE_length_le _ _ (by omega) (by omega)
  · exact toBytesLE_mem_lt _
  · rw [transformBlock_last]
    rw [fme_eq_pow_mod _ _ _ hn2, fromBytesLE_toBytesLE, hRSA _ hx]
  · exact toBytesLE_length_le _ _ hb1 (fromBytesLE_lt b hbb)
  · exact toBytesLE_fromBytesLE_pad b hbb hbne

theorem transform_roundtrip_mid (e d n B : Nat) (hB : 1 ≤ B) (hn2 : 2 ≤ n)
    (hlt : 256 ^ B ≤ n) (hub : n ≤ 256 ^ (2 * B))
    (hRSA : ∀ x, x < n → (x ^ e % n) ^ d % n = x)
    (b : List Nat) (hb : b.length = B) (hbb : ∀ x ∈ b, x < 256) :
    ∃ c : List Nat,
      transformBlock (2 * B) ⟨e, n⟩ false b = some c ∧
      c.length = 2 * B ∧ (∀ x ∈ c, x < 256) ∧
      transformBlock B ⟨d, n⟩ false c = some b := by
  have hbne : b ≠ [] := by
    intro habs
    rw [habs] at hb
    simp at hb
    omega
  have hx : fromBytesLE b < n := by
    calc fromBytesLE b < 256 ^ b.length := fromBytesLE_lt b hbb
      _ = 256 ^ B := by rw [hb]
      _ ≤ n := hlt
  have hy : fromBytesLE b ^ e % n < n := Nat.mod_lt _ (by omega)
  have hylen : (toBytesLE (fromBytesLE b ^ e % n)).length ≤ 2 * B :=
    toBytesLE_length_le _ _ (by omega) (by omega)
  refine ⟨toBytesLE (fromBytesLE b ^ e % n) ++
    List.replicate (2 * B - (toBytesLE (fromBytesLE b ^ e % n)).length) 0,
    ?_, ?_, ?_, ?_⟩
  · rw [transformBlock_mid, fme_eq_pow_mod _ _ _ hn2, if_pos hylen]
  · rw [List.length_append, List.length_replicate]
    omega
  · intro x hxmem
    rw [List.mem_append] at hxmem
    rcases hxmem with hxm | hxm
    · exact toBytesLE_mem_lt _ x hxm
    · have := List.eq_of_mem_replicate hxm
      omega
  · rw [transformBlock_mid, fme_eq_pow_mod _ _ _ hn2]
    rw [fromBytesLE_append_zeros, fromBytesLE_toBytesLE, hRSA _ hx]
    have hzlen : (toBytesLE (fromBytesLE b)).length ≤ B := by
      have := fromBytesLE_lt b hbb
      rw [hb] at this
      exact toBytesLE_length_le _ _ hB this
    rw [if_pos hzlen]
    have := toBytesLE_fromBytesLE_pad b hbb hbne
    rw [hb] at this
    rw [this]

theorem transform_roundtrip_blocks (e d n B : Nat)
    (hB : 1 ≤ B) (hn2 : 2 ≤ n)
    (hlt : 256 ^ B ≤ n) (hub : n ≤ 256 ^ (2 * B))
    (hRSA : ∀ x, x < n → (x ^ e % n) ^ d % n = x) :
    ∀ bs : List (List Nat), BlocksProfile B bs →
      (∀ blk ∈ bs, ∀ x ∈ blk, x < 256) →
      ∃ cs ds : List (List Nat),
        transformBlocks (2 * B) ⟨e, n⟩ bs = some cs ∧
        cs.length = bs.length ∧
        BlocksProfile (2 * B) cs ∧
        transformBlocks B ⟨d, n⟩ cs = some ds ∧
        ((ds.map List.length).sum ≤ (bs.map List.length).sum) ∧
        ds.flatten ++
          List.replicate ((bs.map List.length).sum - (ds.map List.length).sum) 0
          = bs.flatten := by
  intro bs
  induction bs with
  | nil =>
    intro _ _
    exact ⟨[], [], rfl, rfl, trivial, rfl, le_rfl, rfl⟩
  | cons b rest ih =>
    intro hp hbytes
    have hbb : ∀ x ∈ b, x < 256 := hbytes b (List.mem_cons_self _ _)
    cases rest with
    | nil =>
      obtain ⟨hb1, hb2⟩ := hp
      obtain ⟨c, dd, hc1, hc2, hc3, hc4, hc5, hc6, hc7⟩ :=
        transform_roundtrip_last e d n B hB hn2 hlt hub hRSA b hb1 hb2 hbb
      refine ⟨[c], [dd], ?_, rfl, ⟨hc2, hc3⟩, ?_, ?_, ?_⟩
      · rw [transformBlocks_single, hc1]
      · rw [transformBlocks_single, hc5]
      · simpa using hc6
      · simpa using hc7
    | cons c0 rs =>
      obtain ⟨hb, hp2⟩ := hp
      have hbytes2 : ∀ blk ∈ c0 :: rs, ∀ x ∈ blk, x < 256 := by
        intro blk hblk
        exact hbytes blk (List.mem_cons_of_mem _ hblk)
      obtain ⟨cs, ds, h1, h2, h3, h4, h5, h6⟩ := ih hp2 hbytes2
      obtain ⟨c, hc1, hc2, hc3, hc4⟩ :=
        transform_roundtrip_mid e d n B hB hn2 hlt hub hRSA b hb hbb
      cases cs with
      | nil =>
        rw [List.length_nil] at h2
        simp at h2
      | cons y ys =>
        have e1 : ((b :: c0 :: rs).map List.length).sum =
            b.length + ((c0 :: rs).map List.length).sum := by
          simp
        have e2 : ((b :: ds).map List.length).sum =
            b.length + (ds.map List.length).sum := by
          simp
        refine ⟨c :: y :: ys, b :: ds, ?_, ?_, ?_, ?_, ?_, ?_⟩
        · rw [transformBlocks_cons, hc1, h1]
        · simp only [List.length_cons] at h2 ⊢
          omega
        · exact ⟨hc2, h3⟩
        · rw [transformBlocks_cons, hc4, h4]
        · rw [e1, e2]
          omega
        · have e3 : (b :: ds).flatten = b ++ ds.flatten := rfl
          have e4 : (b :: c0 :: rs).flatten = b ++ (c0 :: rs).flatten := rfl
          rw [e1, e2, e3, e4]
          have harith : b.length + ((c0 :: rs).map List.length).sum -
              (b.length + (ds.map List.length).sum) =
              ((c0 :: rs).map List.length).sum - (ds.map List.length).sum := by
            omega
          rw [harith, List.append_assoc, h6]

theorem process_encode_eq (key : Key) (input : List Nat) :
    process RunMode.Encode key input =
      match transformBlocks (res_len_target RunMode.Encode key.m) key
        (splitBlocks (source_len_target RunMode.Encode key.m) input) with
      | none => none
      | some res => some (leBytes 8 input.length ++ res.flatten) := rfl

theorem process_encode_some (key : Key) (input : List Nat) (res : List (List Nat))
    (hres : transformBlocks (res_len_target RunMode.Encode key.m) key
      (splitBlocks (source_len_target RunMode.Encode key.m) input) = some res) :
    process RunMode.Encode key input = some (leBytes 8 input.length ++ res.flatten) := by
  rw [process_encode_eq, hres]

theorem process_decode_eq (key : Key) (input : List Nat) :
    process RunMode.Decode key input =
      (if input.length < 8 then none
       else
        match transformBlocks (res_len_target RunMode.Decode key.m) key
          (splitBlocks (source_len_target RunMode.Decode key.m) (input.drop 8)) with
        | none => none
        | some res =>
          if (res.map List.length).sum ≤
              (if fromBytesLE (input.take 8) = 0 then
                ((splitBlocks (source_len_target RunMode.Decode key.m)
                  (input.drop 8)).map List.length).sum
               else fromBytesLE (input.take 8)) then
            some (res.flatten ++ List.replicate
              ((if fromBytesLE (input.take 8) = 0 then
                  ((splitBlocks (source_len_target RunMode.Decode key.m)
                    (input.drop 8)).map List.length).sum
                else fromBytesLE (input.take 8)) - (res.map List.length).sum) 0)
          else none) := rfl

theorem process_decode_some (key : Key) (input : List Nat) (res : List (List Nat))
    (h8 : 8 ≤ input.length)
    (hres : transformBlocks (res_len_target RunMode.Decode key.m) key
      (splitBlocks (source_len_target RunMode.Decode key.m) (input.drop 8)) = some res) :
    process RunMode.Decode key input =
      (if (res.map List.length).sum ≤
          (if fromBytesLE (input.take 8) = 0 then
            ((splitBlocks (source_len_target RunMode.Decode key.m)
              (input.drop 8)).map List.length).sum
           else fromBytesLE (input.take 8)) then
        some (res.flatten ++ List.replicate
          ((if fromBytesLE (input.take 8) = 0 then
              ((splitBlocks (source_len_target RunMode.Decode key.m)
                (input.drop 8)).map List.length).sum
            else fromBytesLE (input.take 8)) - (res.map List.length).sum) 0)
      else none) := by
  rw [process_decode_eq, if_neg (by omega : ¬ input.length < 8), hres]

/-- Amended claim C1: the round trip holds for every key pair whose
modulus is a product of two distinct primes with `e·d ≡ 1 (mod φ)`,
provided the modulus is large enough for the block machinery
(`bits(n) ≥ 16`, so the block size `B` is at least one byte) and every
ciphertext block fits in `2·B` bytes (`bits(n) ≤ 16·B`; a modulus
whose floor-byte-length is a power of two with a bit length that is
not a multiple of 8 violates this and makes Encode panic instead). -/
theorem c1_roundtrip_amended (p q e d : Nat) (s : List Nat)
    (hp : p.Prime) (hq : q.Prime) (hpq : p ≠ q)
    (hed : e * d ≡ 1 [MOD (p - 1) * (q - 1)])
    (hbits : 16 ≤ bits (p * q))
    (hfit : bits (p * q) ≤ 16 * get_group_size_byte (p * q))
    (hbytes : ∀ b ∈ s, b < 256)
    (hlen : s.length < 2 ^ 64) :
    (process RunMode.Encode ⟨e, p * q⟩ s).bind (process RunMode.Decode ⟨d, p * q⟩) =
      some s := by
  set n := p * q with hn
  set B := get_group_size_byte n with hBdef
  have hn4 : 4 ≤ n := by
    calc 4 = 2 * 2 := rfl
      _ ≤ p * q := Nat.mul_le_mul hp.two_le hq.two_le
  have hL : 2 ≤ bits n / 8 := by omega
  have hB1 : 1 ≤ B := get_group_size_byte_pos n hL
  have h8B : 8 * B + 8 ≤ bits n := get_group_size_byte_mul8 n hL
  have h256B : 256 ^ B ≤ n := by
    have h1 : 2 ^ (bits n - 1) ≤ n := two_pow_pred_bits_le n (by omega)
    have h2 : (256 : Nat) ^ B = 2 ^ (8 * B) := by
      rw [show (256 : Nat) = 2 ^ 8 from rfl, ← pow_mul]
    rw [h2]
    calc (2:Nat) ^ (8 * B) ≤ 2 ^ (bits n - 1) :=
        Nat.pow_le_pow_right (by omega) (by omega)
      _ ≤ n := h1
  have hub : n ≤ 256 ^ (2 * B) := by
    have h1 : n < 2 ^ bits n := lt_two_pow_bits n
    have h2 : (256 : Nat) ^ (2 * B) = 2 ^ (16 * B) := by
      rw [show (256:Nat) = 2 ^ 8 from rfl, ← pow_mul]
      congr 1
      ring
    rw [h2]
    have h3 : (2:Nat) ^ bits n ≤ 2 ^ (16 * B) :=
      Nat.pow_le_pow_right (by omega) hfit
    omega
  have hRSA : ∀ x, x < n → (x ^ e % n) ^ d % n = x := fun x hx =>
    rsa_identity_mod p q e d x hp hq hpq hed hx
  have hprofile := splitBlocks_profile B hB1 s
  have hsbytes := splitBlocks_byte_lt B s hbytes
  obtain ⟨cs, ds, hcs, hlencs, hcsprof, hds, hsum, hflat⟩ :=
    transform_roundtrip_blocks e d n B hB1 (by omega) h256B hub hRSA
      (splitBlocks B s) hprofile hsbytes
  have hsum_s : ((splitBlocks B s).map List.length).sum = s.length :=
    splitBlocks_length_sum B s
  have hflat_s : (splitBlocks B s).flatten = s := splitBlocks_flatten B s
  -- run the encoder
  have henc : process RunMode.Encode ⟨e, n⟩ s =
      some (leBytes 8 s.length ++ cs.flatten) := by
    apply process_encode_some
    show transformBlocks (res_len_target RunMode.Encode n) ⟨e, n⟩
      (splitBlocks (source_len_target RunMode.Encode n) s) = some cs
    rw [res_len_encode, source_len_encode]
    exact hcs
  rw [henc, Option.some_bind]
  -- run the decoder on the encoder's output
  have h8 : 8 ≤ (leBytes 8 s.length ++ cs.flatten).length := by
    rw [List.length_append, leBytes_length]
    omega
  have htake : (leBytes 8 s.length ++ cs.flatten).take 8 = leBytes 8 s.length :=
    List.take_left' (leBytes_length 8 s.length)
  have hdrop : (leBytes 8 s.length ++ cs.flatten).drop 8 = cs.flatten :=
    List.drop_left' (leBytes_length 8 s.length)
  have hfile0 : fromBytesLE (leBytes 8 s.length) = s.length := by
    rw [fromBytesLE_leBytes]
    apply Nat.mod_eq_of_lt
    calc s.length < 2 ^ 64 := hlen
      _ = 256 ^ 8 := by norm_num
  have hsplit_cs : splitBlocks (source_len_target RunMode.Decode n) cs.flatten = cs := by
    rw [source_len_decode]
    exact splitBlocks_realign (2 * B) (by omega) cs hcsprof
  have hds2 : transformBlocks (res_len_target RunMode.Decode n) ⟨d, n⟩
      (splitBlocks (source_len_target RunMode.Decode n)
        ((leBytes 8 s.length ++ cs.flatten).drop 8)) = some ds := by
    rw [hdrop, hsplit_cs, res_len_decode]
    exact hds
  rw [process_decode_some ⟨d, n⟩ _ ds h8 hds2]
  rw [htake, hfile0, hdrop, hsplit_cs]
  have hfd : (if s.length = 0 then (cs.map List.length).sum else s.length) = s.length := by
    by_cases hs0 : s.length = 0
    · rw [if_pos hs0, hs0]
      have hsnil : s = [] := List.eq_nil_of_length_eq_zero hs0
      have hcs0 : cs = [] := by
        have : splitBlocks B s = [] := by rw [hsnil]; rfl
        rw [this] at hcs
        have h9 := hcs.symm
        rw [transformBlocks_nil] at h9
        exact Option.some_inj.mp h9
      rw [hcs0]
      rfl
    · rw [if_neg hs0]
  rw [hfd]
  rw [hsum_s] at hsum
  rw [if_pos hsum]
  rw [hsum_s, hflat_s] at hflat
  rw [hflat]

theorem c1_roundtrip_amended_witness :
    (process RunMode.Encode ⟨7, 151 * 251⟩ [1, 2, 3]).bind
      (process RunMode.Decode ⟨32143, 151 * 251⟩) = some [1, 2, 3] :=
  c1_roundtrip_amended 151 251 7 32143 [1, 2, 3] (by norm_num) (by norm_num)
    (by decide) (by decide) (by decide) (by decide) (by decide) (by decide)

/-- Counterexample to claim C1 as stated: `generate_key` can return the
key pair `((7, 16411²), (192348643, 16411²))` - both prime draws hit the
same prime 16411 (the second from the process-wide cache), and
`check_key_set` still holds because `7·192348643 ≡ 1 (mod 16410²)` -
but the round trip loses the byte string `[2, 0]`: `p = q` breaks the
RSA identity, the decoded block is four bytes long, exceeds the
recorded length 2, and Decode fails the total-length guard. -/
theorem c1_claim_counterexample :
    ∃ (cfg : GenCfg) (prime_min prime_max : Nat) (pub priv : Key) (s : List Nat),
      GenerateKeyPossible cfg prime_min prime_max pub priv ∧
      (∀ b ∈ s, b < 256) ∧
      (process RunMode.Encode pub s).bind (process RunMode.Decode priv) ≠ some s := by
  refine ⟨⟨1, 2, 1000, false⟩, 14, 15, ⟨7, 269320921⟩, ⟨192348643, 269320921⟩,
    [2, 0], ?_, by decide, by decide⟩
  refine ⟨16411, 16411, 7, [16411], [], [],
    [[WorkerRes.ok 16411, WorkerRes.ok 16411]], [], ?_, ?_, ?_, by decide, by decide,
    by decide⟩
  · apply GenPrime.fresh [WorkerRes.ok 16411, WorkerRes.ok 16411] 16411 [16411]
    · rfl
    · intro r hr
      rw [List.mem_cons, List.mem_cons] at hr
      have hone : r = WorkerRes.ok 16411 := by
        rcases hr with h | h | h
        · exact h
        · exact h
        · simp at h
      subst hone
      refine ⟨by norm_num, by norm_num,
        millerRabinPasses_of_odd 16411 1 (by norm_num) (by norm_num)⟩
    · rfl
  · exact GenPrime.cache_hit 16411 []
  · apply PickE.found [] [] 7 [[WorkerRes.ok 7, WorkerRes.err 2000]]
    · apply GenPrime.fresh [WorkerRes.ok 7, WorkerRes.err 2000] 7 []
      · rfl
      · intro r hr
        rw [List.mem_cons, List.mem_cons] at hr
        rcases hr with h | h | h
        · subst h
          refine ⟨by norm_num, by decide,
            millerRabinPasses_of_odd 7 1 (by norm_num) (by norm_num)⟩
        · subst h
          show (1000 : Int) < 2000
          decide
        · simp at h
      · rfl
    · decide

theorem process_encode_inv (key : Key) (input t : List Nat)
    (h : process RunMode.Encode key input = some t) :
    ∃ res, transformBlocks (res_len_target RunMode.Encode key.m) key
      (splitBlocks (source_len_target RunMode.Encode key.m) input) = some res ∧
      t = leBytes 8 input.length ++ res.flatten := by
  rw [process_encode_eq] at h
  split at h
  · exact absurd h (by simp)
  · rename_i res hres
    exact ⟨res, hres, (Option.some_inj.mp h).symm⟩

theorem process_decode_inv (key : Key) (input v : List Nat)
    (h : process RunMode.Decode key input = some v) :
    8 ≤ input.length ∧
    ∃ res, transformBlocks (res_len_target RunMode.Decode key.m) key
        (splitBlocks (source_len_target RunMode.Decode key.m) (input.drop 8)) = some res ∧
      (res.map List.length).sum ≤
        (if fromBytesLE (input.take 8) = 0 then
          ((splitBlocks (source_len_target RunMode.Decode key.m)
            (input.drop 8)).map List.length).sum
         else fromBytesLE (input.take 8)) ∧
      v = res.flatten ++ List.replicate
        ((if fromBytesLE (input.take 8) = 0 then
            ((splitBlocks (source_len_target RunMode.Decode key.m)
              (input.drop 8)).map List.length).sum
          else fromBytesLE (input.take 8)) - (res.map List.length).sum) 0 := by
  rw [process_decode_eq] at h
  split at h
  · exact absurd h (by simp)
  · rename_i h8
    split at h
    · exact absurd h (by simp)
    · rename_i res hres
      by_cases hz : fromBytesLE (input.take 8) = 0
      · rw [if_pos hz] at h
        rw [if_pos hz]
        split at h
        · rename_i hguard
          exact ⟨by omega, res, hres, hguard, (Option.some_inj.mp h).symm⟩
        · exact absurd h (by simp)
      · rw [if_neg hz] at h
        rw [if_neg hz]
        split at h
        · rename_i hguard
          exact ⟨by omega, res, hres, hguard, (Option.some_inj.mp h).symm⟩
        · exact absurd h (by simp)

/-- Amended claim C2: Encode prefixes its output with the 8-byte
little-endian input length and encodes the empty input as exactly the
8 zero bytes; Decode returns an output of exactly the recorded length
whenever that recorded length is nonzero (a zero recorded length is
replaced by the total split-block length of the remaining data, so a
zero header over nonempty data does not yield empty output), and
decoding the 8 zero bytes yields the empty output. -/
theorem c2_framing_amended (key : Key) (s u t v : List Nat)
    (henc : process RunMode.Encode key s = some t)
    (hdec : process RunMode.Decode key u = some v)
    (hr : fromBytesLE (u.take 8) ≠ 0) :
    t.take 8 = leBytes 8 s.length ∧
    v.length = fromBytesLE (u.take 8) ∧
    process RunMode.Encode key [] = some (List.replicate 8 0) ∧
    process RunMode.Decode key (List.replicate 8 0) = some [] := by
  refine ⟨?_, ?_, ?_, ?_⟩
  · obtain ⟨res, hres, ht⟩ := process_encode_inv key s t henc
    rw [ht]
    exact List.take_left' (leBytes_length 8 s.length)
  · obtain ⟨h8, res, hres, hguard, hv⟩ := process_decode_inv key u v hdec
    rw [if_neg hr] at hguard hv
    have hfl : res.flatten.length = (res.map List.length).sum := by
      simp [List.length_flatten]
    rw [hv, List.length_append, List.length_replicate, hfl]
    omega
  · rw [process_encode_eq, splitBlocks_nil, transformBlocks_nil]
    rfl
  · rfl

theorem c2_framing_amended_witness :
    ([1, 0, 0, 0, 0, 0, 0, 0, 180] : List Nat).take 8 =
      leBytes 8 ([5] : List Nat).length ∧
    ([138] : List Nat).length =
      fromBytesLE (([1, 0, 0, 0, 0, 0, 0, 0, 162] : List Nat).take 8) ∧
    process RunMode.Encode ⟨23, 187⟩ [] = some (List.replicate 8 0) ∧
    process RunMode.Decode ⟨23, 187⟩ (List.replicate 8 0) = some [] :=
  c2_framing_amended ⟨23, 187⟩ [5] [1, 0, 0, 0, 0, 0, 0, 0, 162]
    [1, 0, 0, 0, 0, 0, 0, 0, 180] [138] (by decide) (by decide) (by decide)

/-- Counterexample to claim C2 as stated: Decode does not always emit
exactly the recorded length.  With key `(23, 187)` and input
`00×8 ‖ 2d`, the recorded length is `0`, yet Decode substitutes the
block-data length for it and returns the one-byte output `[122]`
(`45^23 mod 187 = 122`) instead of zero bytes. -/
theorem c2_claim_counterexample :
    process RunMode.Decode ⟨23, 187⟩ [0, 0, 0, 0, 0, 0, 0, 0, 45] = some [122] ∧
    fromBytesLE (([0, 0, 0, 0, 0, 0, 0, 0, 45] : List Nat).take 8) = 0 ∧
    ([122] : List Nat).length = 1 := by
  refine ⟨by decide, by decide, rfl⟩

theorem transformBlocks_spec (resTarget : Nat) (key : Key) (hm : 2 ≤ key.m) :
    ∀ (bs rs : List (List Nat)), transformBlocks resTarget key bs = some rs →
      rs.length = bs.length ∧
      ∀ i, i < bs.length →
        (i + 1 = bs.length →
          rs.getD i [] =
            toBytesLE (fromBytesLE (bs.getD i []) ^ key.base % key.m)) ∧
        (i + 1 ≠ bs.length →
          rs.getD i [] =
            toBytesLE (fromBytesLE (bs.getD i []) ^ key.base % key.m) ++
              List.replicate (resTarget -
                (toBytesLE (fromBytesLE (bs.getD i []) ^ key.base % key.m)).length) 0 ∧
          (rs.getD i []).length = resTarget) := by
  intro bs
  induction bs with
  | nil =>
    intro rs h
    rw [transformBlocks_nil] at h
    have hrs : rs = [] := (Option.some_inj.mp h).symm
    subst hrs
    refine ⟨rfl, ?_⟩
    intro i hi
    simp at hi
  | cons b tail ih =>
    cases tail with
    | nil =>
      intro rs h
      rw [transformBlocks_single, transformBlock_last] at h
      have hrs : rs = [toBytesLE (fast_modular_exponent (fromBytesLE b) key.base key.m)] :=
        (Option.some_inj.mp h).symm
      subst hrs
      refine ⟨rfl, ?_⟩
      intro i hi
      have hi0 : i = 0 := by
        rw [List.length_cons, List.length_nil] at hi
        omega
      subst hi0
      constructor
      · intro _
        rw [List.getD_cons_zero, List.getD_cons_zero, fme_eq_pow_mod _ _ _ hm]
      · intro hne
        exact absurd (by rw [List.length_cons, List.length_nil]) hne
    | cons c rest =>
      intro rs h
      cases hmid : transformBlock resTarget key false b with
      | none =>
        rw [transformBlocks_cons, hmid] at h
        exact absurd h (by simp)
      | some r =>
        cases hrec : transformBlocks resTarget key (c :: rest) with
        | none =>
          rw [transformBlocks_cons, hmid, hrec] at h
          exact absurd h (by simp)
        | some rs2 =>
          rw [transformBlocks_cons, hmid, hrec] at h
          have hrs : rs = r :: rs2 := (Option.some_inj.mp h).symm
          subst hrs
          rw [transformBlock_mid] at hmid
          split at hmid
          · rename_i hfit
            have hr : r = toBytesLE (fast_modular_exponent (fromBytesLE b) key.base key.m) ++
                List.replicate (resTarget -
                  (toBytesLE (fast_modular_exponent (fromBytesLE b) key.base key.m)).length) 0 :=
              (Option.some_inj.mp hmid).symm
            obtain ⟨ihlen, ihidx⟩ := ih rs2 hrec
            constructor
            · rw [List.length_cons, List.length_cons, ihlen, List.length_cons]
            · intro i hi
              cases i with
              | zero =>
                constructor
                · intro h1
                  rw [List.length_cons, List.length_cons] at h1
                  omega
                · intro _
                  rw [List.getD_cons_zero, List.getD_cons_zero, hr,
                    fme_eq_pow_mod _ _ _ hm]
                  refine ⟨rfl, ?_⟩
                  rw [List.length_append, List.length_replicate]
                  rw [fme_eq_pow_mod _ _ _ hm] at hfit
                  omega
              | succ j =>
                have hj : j < (c :: rest).length := by
                  rw [List.length_cons] at hi
                  omega
                obtain ⟨hlast, hmid2⟩ := ihidx j hj
                constructor
                · intro h1
                  rw [List.getD_cons_succ, List.getD_cons_succ]
                  apply hlast
                  rw [List.length_cons] at h1
                  omega
                · intro h1
                  rw [List.getD_cons_succ, List.getD_cons_succ]
                  apply hmid2
                  intro hc
                  apply h1
                  rw [List.length_cons, hc]
          · exact absurd hmid (by simp)

/-- Claim C3: on any successful run of the per-block transform, block
`i` is deserialized little-endian to `x`, mapped to
`x ^ base mod m`, and re-serialized; every block except the final one
is right-padded with zero bytes to exactly the result-block length,
while the final block keeps its natural serialized length. -/
theorem c3_block_transform (resTarget : Nat) (key : Key) (bs rs : List (List Nat))
    (i : Nat) (hm : 2 ≤ key.m) (h : transformBlocks resTarget key bs = some rs)
    (hi : i < bs.length) :
    rs.length = bs.length ∧
    rs.getD i [] =
      (if i + 1 = bs.length then
        toBytesLE (fromBytesLE (bs.getD i []) ^ key.base % key.m)
       else
        toBytesLE (fromBytesLE (bs.getD i []) ^ key.base % key.m) ++
          List.replicate (resTarget -
            (toBytesLE (fromBytesLE (bs.getD i []) ^ key.base % key.m)).length) 0) ∧
    (rs.getD i []).length =
      (if i + 1 = bs.length then
        (toBytesLE (fromBytesLE (bs.getD i []) ^ key.base % key.m)).length
       else resTarget) := by
  obtain ⟨hlen, hidx⟩ := transformBlocks_spec resTarget key hm bs rs h
  obtain ⟨hlast, hmid⟩ := hidx i hi
  by_cases hl : i + 1 = bs.length
  · rw [if_pos hl, if_pos hl]
    have := hlast hl
    exact ⟨hlen, this, by rw [this]⟩
  · rw [if_neg hl, if_neg hl]
    obtain ⟨h1, h2⟩ := hmid hl
    exact ⟨hlen, h1, h2⟩

theorem c3_block_transform_witness :
    ([[125, 0], [216]] : List (List Nat)).length =
      ([[5], [6]] : List (List Nat)).length ∧
    ([[125, 0], [216]] : List (List Nat)).getD 0 [] =
      (if 0 + 1 = ([[5], [6]] : List (List Nat)).length then
        toBytesLE (fromBytesLE (([[5], [6]] : List (List Nat)).getD 0 []) ^ 3 % 65537)
       else
        toBytesLE (fromBytesLE (([[5], [6]] : List (List Nat)).getD 0 []) ^ 3 % 65537) ++
          List.replicate (2 -
            (toBytesLE (fromBytesLE (([[5], [6]] : List (List Nat)).getD 0 [])
              ^ 3 % 65537)).length) 0) ∧
    (([[125, 0], [216]] : List (List Nat)).getD 0 []).length =
      (if 0 + 1 = ([[5], [6]] : List (List Nat)).length then
        (toBytesLE (fromBytesLE (([[5], [6]] : List (List Nat)).getD 0 [])
          ^ 3 % 65537)).length
       else 2) :=
  c3_block_transform 2 ⟨3, 65537⟩ [[5], [6]] [[125, 0], [216]] 0
    (by decide) (by decide) (by decide)

/-- Counterexample to claim C4 as stated: for `m = 257` the code's
block size (floor byte length `9 / 8 = 1`, so `2^0 / 2 = 0`) differs
from the spec formula built on the ceiling byte length `⌈9/8⌉ = 2`. -/
theorem c4_claim_counterexample :
    get_group_size_byte 257 ≠ specGroupSizeByte 257 ∧
    get_group_size_byte 257 = 0 ∧ specGroupSizeByte 257 = 1 := by
  refine ⟨by decide, by decide, by decide⟩

/-- Amended claim C4: with the byte length taken as the *floor*
`bits(m)/8` (as the code's casts do), and provided that floor is at
least 2 (`bits(m) ≥ 16`), the block size is
`B = 2^(⌈log₂(bits(m)/8)⌉ - 1)`, the largest power of two strictly
below `bits(m)/8`; Encode reads `B`-byte source blocks and emits
`2B`-byte result blocks, Decode reads `2B` and emits `B`. -/
theorem c4_block_size_amended (m : Nat) (h : 16 ≤ bits m) :
    get_group_size_byte m = 2 ^ (clog2 (bits m / 8) - 1) ∧
    get_group_size_byte m < bits m / 8 ∧
    bits m / 8 ≤ 2 * get_group_size_byte m ∧
    source_len_target RunMode.Encode m = get_group_size_byte m ∧
    res_len_target RunMode.Encode m = 2 * get_group_size_byte m ∧
    source_len_target RunMode.Decode m = 2 * get_group_size_byte m ∧
    res_len_target RunMode.Decode m = get_group_size_byte m := by
  have hL : 2 ≤ bits m / 8 := by omega
  have he := get_group_size_byte_eq_pow m hL
  refine ⟨he, ?_, ?_, ?_, ?_, ?_, ?_⟩
  · rw [he]
    exact two_pow_clog2_pred_lt _ hL
  · rw [he]
    have h1 := le_two_pow_clog2 (bits m / 8)
    have h2 : (2:Nat) ^ clog2 (bits m / 8) = 2 * 2 ^ (clog2 (bits m / 8) - 1) := by
      conv_lhs => rw [show clog2 (bits m / 8) = (clog2 (bits m / 8) - 1) + 1 from by
        have := clog2_pos (bits m / 8) hL
        omega]
      rw [pow_succ]
      ring
    omega
  · show get_group_size_byte m * 1 = get_group_size_byte m
    ring
  · show get_group_size_byte m * 1 * 2 = 2 * get_group_size_byte m
    ring
  · show get_group_size_byte m * 2 = 2 * get_group_size_byte m
    ring
  · show get_group_size_byte m * 2 / 2 = get_group_size_byte m
    omega

theorem c4_block_size_amended_witness :
    get_group_size_byte 65536 = 2 ^ (clog2 (bits 65536 / 8) - 1) ∧
    get_group_size_byte 65536 < bits 65536 / 8 ∧
    bits 65536 / 8 ≤ 2 * get_group_size_byte 65536 ∧
    source_len_target RunMode.Encode 65536 = get_group_size_byte 65536 ∧
    res_len_target RunMode.Encode 65536 = 2 * get_group_size_byte 65536 ∧
    source_len_target RunMode.Decode 65536 = 2 * get_group_size_byte 65536 ∧
    res_len_target RunMode.Decode 65536 = get_group_size_byte 65536 :=
  c4_block_size_amended 65536 (by decide)

/-- Counterexample to claim C5 as stated: the code's round is not the
specified Miller-Rabin round.  For the strong-pseudoprime witness pair
`n = 341`, `a = 2` (odd `n > 1`, `a ∈ [2, n-2]`), the code's round
passes (`2^340 ≡ 1 (mod 341)`), while the specified round - decompose
`340 = 2^2 · 85`, probe `2^85 ≡ 32`, then `32^2 ≡ 1`, never hitting
`340` - rejects. -/
theorem c5_claim_counterexample :
    mrRound 341 2 = true ∧ specMillerRabinRound 341 2 = false ∧
    (341 : Nat) % 2 = 1 ∧ 2 ≤ 341 - 2 := by
  refine ⟨by decide, by decide, by decide, by decide⟩

/-- Amended claim C5: `miller_rabin` does return true iff every round
passes, but a round is only a Fermat-type test: the odd-part loop
strips trailing *one* bits of the even number `n - 1`, so the exponent
stays `n - 1`, and the round passes iff `a^(n-1) mod n` is `1` or
`n - 1`. -/
theorem c5_miller_rabin_amended (n : Nat) (ws : List Nat) (a : Nat)
    (hodd : n % 2 = 1) (h3 : 3 ≤ n) :
    (miller_rabin n ws = true ↔ ∀ b ∈ ws, mrRound n b = true) ∧
    (mrRound n a = true ↔ a ^ (n - 1) % n = 1 ∨ a ^ (n - 1) % n = n - 1) := by
  constructor
  · unfold miller_rabin
    rw [if_neg (by omega : ¬ n = 0), if_neg (by omega : ¬ (n % 2 = 0 ∨ n = 1))]
    exact List.all_eq_true
  · exact mrRound_iff n a hodd h3

theorem c5_miller_rabin_amended_witness :
    (miller_rabin 341 [2] = true ↔ ∀ b ∈ ([2] : List Nat), mrRound 341 b = true) ∧
    (mrRound 341 2 = true ↔
      2 ^ (341 - 1) % 341 = 1 ∨ 2 ^ (341 - 1) % 341 = 341 - 1) :=
  c5_miller_rabin_amended 341 [2] 2 (by decide) (by decide)

/-- Claim C10 (implicit): for odd `n > 1` the odd-part extraction is a
no-op (`d` stays `n - 1`, since the loop tests the *low bit being one*
on the even `n - 1`), the squaring loop makes exactly one comparison
before `d` doubles past `n`, and hence one witness round passes iff
`a^(n-1) mod n` equals `1` or `n - 1` - a Fermat test, not a
Miller-Rabin round. -/
theorem c10_fermat_round (n a : Nat) (hodd : n % 2 = 1) (h3 : 3 ≤ n) :
    mrOddStrip n = n - 1 ∧
    (mrRound n a = true ↔ a ^ (n - 1) % n = 1 ∨ a ^ (n - 1) % n = n - 1) :=
  ⟨mrOddStrip_eq n hodd, mrRound_iff n a hodd h3⟩

theorem c10_fermat_round_witness :
    mrOddStrip 9 = 9 - 1 ∧
    (mrRound 9 2 = true ↔ 2 ^ (9 - 1) % 9 = 1 ∨ 2 ^ (9 - 1) % 9 = 9 - 1) :=
  c10_fermat_round 9 2 (by decide) (by decide)

/-- Amended claim C6: a successful `generate_prime` result either lies
in the current call's `[low, high)` range and passed `miller_rabin` at
the current round count, or it was popped from the process-wide cache,
in which case it only satisfies the range and round count of *some
earlier call* recorded in the cache history - not necessarily the
current ones. -/
theorem c6_generate_prime_amended (cfg : GenCfg) (low high : Nat) (c : List Nat)
    (hist : List (GenCfg × Nat × Nat)) (logs : List (List WorkerRes))
    (res : Except PrimeError Nat × List Nat) (x : Nat)
    (hreach : CacheReach c hist)
    (h : GenPrime cfg low high c logs res)
    (hx : res.1 = Except.ok x) :
    (low ≤ x ∧ x < high ∧ millerRabinPasses x cfg.rounds) ∨
    ∃ e ∈ hist, e.2.1 ≤ x ∧ x < e.2.2 ∧ millerRabinPasses x e.1.rounds := by
  rcases (genPrime_sources cfg low high c logs res h).1 x hx with hc | hg
  · right
    exact cacheReach_good c hist hreach x hc
  · left
    exact hg

theorem c6_generate_prime_amended_witness :
    (2 ≤ 5 ∧ 5 < 8 ∧ millerRabinPasses 5 1) ∨
    ∃ e ∈ ([] : List (GenCfg × Nat × Nat)),
      e.2.1 ≤ 5 ∧ 5 < e.2.2 ∧ millerRabinPasses 5 e.1.rounds :=
  c6_generate_prime_amended ⟨1, 1, 1000, false⟩ 2 8 [] [] [[WorkerRes.ok 5]]
    (Except.ok 5, []) 5 CacheReach.init
    (by
      apply GenPrime.fresh [WorkerRes.ok 5] 5 []
      · rfl
      · intro r hr
        rw [List.mem_cons] at hr
        rcases hr with h | h
        · subst h
          exact ⟨by norm_num, by norm_num,
            millerRabinPasses_of_odd 5 1 (by norm_num) (by norm_num)⟩
        · simp at h
      · rfl)
    rfl

/-- Counterexample to claim C6 as stated: a successful result can fall
outside the current call's `[low, high)`.  A first call with range
`[2, 4)` finds 3 twice and leaves `[3]` in the process-wide cache; a
later call with range `[8, 16)` pops that cached 3 and returns it,
although `3 ∉ [8, 16)`. -/
theorem c6_claim_counterexample :
    ∃ (cfg : GenCfg) (hist : List (GenCfg × Nat × Nat)) (c : List Nat)
      (low high : Nat) (logs : List (List WorkerRes)) (x : Nat) (c2 : List Nat),
      CacheReach c hist ∧ GenPrime cfg low high c logs (Except.ok x, c2) ∧
      ¬ (low ≤ x ∧ x < high) := by
  refine ⟨⟨1, 1, 1000, false⟩, [(⟨1, 2, 1000, false⟩, 2, 4)], [3], 8, 16, [], 3, [],
    ?_, GenPrime.cache_hit 3 [], by omega⟩
  apply CacheReach.step ⟨1, 2, 1000, false⟩ 2 4 [] [3] [] [[WorkerRes.ok 3, WorkerRes.ok 3]]
    (Except.ok 3) CacheReach.init
  apply GenPrime.fresh [WorkerRes.ok 3, WorkerRes.ok 3] 3 [3]
  · rfl
  · intro r hr
    rw [List.mem_cons, List.mem_cons] at hr
    have hone : r = WorkerRes.ok 3 := by
      rcases hr with h | h | h
      · exact h
      · exact h
      · simp at h
    subst hone
    exact ⟨by norm_num, by norm_num,
      millerRabinPasses_of_odd 3 1 (by norm_num) (by norm_num)⟩
  · rfl

/-- Claim C7: for `e` coprime to `f` (`f > 1`), `mod_reverse(e, f)` is
the modular inverse normalised into `[0, f)`: `(r · e) mod f = 1`, and
`r = (x mod f + f) mod f` for the Bezout coefficient `x` returned by
the recursive `extended_euclid` (with BigInt's truncating `/` and `%`);
when `gcd(e, f) ≠ 1` it returns 0. -/
theorem c7_mod_reverse (e f e2 f2 : Nat) (hf : 1 < f) (hco : Nat.gcd e f = 1)
    (hnc : Nat.gcd e2 f2 ≠ 1) :
    (0 ≤ mod_reverse (e : Int) (f : Int) ∧ mod_reverse (e : Int) (f : Int) < f ∧
     (mod_reverse (e : Int) (f : Int) * e) % (f : Int) = 1 ∧
     ∃ x y : Int, extended_euclid (e : Int) (f : Int) 0 1 = (1, x, y) ∧
       (e : Int) * x + (f : Int) * y = 1 ∧
       mod_reverse (e : Int) (f : Int) = Int.tmod (Int.tmod x f + f) f) ∧
    mod_reverse (e2 : Int) (f2 : Int) = 0 :=
  ⟨mod_reverse_spec e f hf hco, mod_reverse_not_coprime e2 f2 hnc⟩

theorem c7_mod_reverse_witness :
    (0 ≤ mod_reverse ((7 : Nat) : Int) ((40 : Nat) : Int) ∧
     mod_reverse ((7 : Nat) : Int) ((40 : Nat) : Int) < ((40 : Nat) : Int) ∧
     (mod_reverse ((7 : Nat) : Int) ((40 : Nat) : Int) * ((7 : Nat) : Int)) %
       ((40 : Nat) : Int) = 1 ∧
     ∃ x y : Int,
       extended_euclid ((7 : Nat) : Int) ((40 : Nat) : Int) 0 1 = (1, x, y) ∧
       ((7 : Nat) : Int) * x + ((40 : Nat) : Int) * y = 1 ∧
       mod_reverse ((7 : Nat) : Int) ((40 : Nat) : Int) =
         Int.tmod (Int.tmod x ((40 : Nat) : Int) + ((40 : Nat) : Int))
           ((40 : Nat) : Int)) ∧
    mod_reverse ((6 : Nat) : Int) ((9 : Nat) : Int) = 0 :=
  c7_mod_reverse 7 40 6 9 (by decide) (by decide) (by decide)

theorem okList_replicate_err (k : Nat) (t : Int) :
    okList (List.replicate k (WorkerRes.err t)) = [] := by
  induction k with
  | zero => rfl
  | succ j ih =>
    rw [List.replicate_succ]
    rw [show okList (WorkerRes.err t :: List.replicate j (WorkerRes.err t)) =
      okList (List.replicate j (WorkerRes.err t)) from rfl]
    exact ih

theorem genPrime_error_inv (cfg : GenCfg) (low high : Nat) (c : List Nat)
    (logs : List (List WorkerRes)) (res : Except PrimeError Nat × List Nat)
    (h : GenPrime cfg low high c logs res) :
    ∀ err, res.1 = Except.error err →
      cfg.retry = false ∧ err = PrimeError.Timeout cfg.time_max := by
  induction h with
  | cache_hit x rest =>
    intro err herr
    simp at herr
  | fresh results x rest hlen hw hpop =>
    intro err herr
    simp at herr
  | timeout results hlen hw hempty hretry =>
    intro err herr
    simp only at herr
    rw [Except.error.injEq] at herr
    exact ⟨hretry, herr.symm⟩
  | retry_step results logs res hlen hw hempty hretry hrec ih =>
    intro err herr
    obtain ⟨hf, _⟩ := ih err herr
    rw [hretry] at hf
    exact absurd hf (by simp)

theorem genPrime_timeout_possible (cfg : GenCfg) (low high : Nat)
    (hretry : cfg.retry = false) :
    GenPrime cfg low high []
      [List.replicate cfg.threads (WorkerRes.err (cfg.time_max + 1))]
      (Except.error (PrimeError.Timeout cfg.time_max), []) := by
  apply GenPrime.timeout
  · exact List.length_replicate ..
  · intro r hr
    have hrr := List.eq_of_mem_replicate hr
    subst hrr
    show cfg.time_max < cfg.time_max + 1
    omega
  · exact okList_replicate_err _ _
  · exact hretry

/-- Amended claim C9: when `generate_prime` surfaces an error, retry
is necessarily disabled and the error is `Timeout(time_max)` - the
*configured per-worker budget*, not the elapsed milliseconds the
workers measured; conversely, with retry disabled a run whose workers
all time out surfaces exactly that error.  (With retry enabled no
error can surface, which is the first conjunct's contrapositive.) -/
theorem c9_timeout_amended (cfg : GenCfg) (low high : Nat) (c c2 : List Nat)
    (logs : List (List WorkerRes)) (err : PrimeError)
    (h : GenPrime cfg low high c logs (Except.error err, c2)) :
    cfg.retry = false ∧ err = PrimeError.Timeout cfg.time_max ∧
    ∃ logs2, GenPrime cfg low high [] logs2
      (Except.error (PrimeError.Timeout cfg.time_max), []) := by
  obtain ⟨h1, h2⟩ := genPrime_error_inv cfg low high c logs _ h err rfl
  exact ⟨h1, h2, ⟨_, genPrime_timeout_possible cfg low high h1⟩⟩

theorem c9_timeout_amended_witness :
    (⟨1, 1, 1, false⟩ : GenCfg).retry = false ∧
    PrimeError.Timeout 1 = PrimeError.Timeout (⟨1, 1, 1, false⟩ : GenCfg).time_max ∧
    ∃ logs2, GenPrime ⟨1, 1, 1, false⟩ 10 20 [] logs2
      (Except.error (PrimeError.Timeout (⟨1, 1, 1, false⟩ : GenCfg).time_max), []) :=
  c9_timeout_amended ⟨1, 1, 1, false⟩ 10 20 [] [] [[WorkerRes.err 8]]
    (PrimeError.Timeout 1)
    (by
      apply GenPrime.timeout [WorkerRes.err 8]
      · rfl
      · intro r hr
        rw [List.mem_cons] at hr
        rcases hr with h | h
        · subst h
          show (1 : Int) < 8
          decide
        · simp at h
      · rfl
      · rfl)

/-- Counterexample to claim C9 as stated: the surfaced Timeout does
not carry the elapsed milliseconds.  A single worker with budget
`time_max = 1` ms measures 8 ms elapsed, yet the surfaced error is
`Timeout(1)` - the configured budget - not `Timeout(8)`. -/
theorem c9_claim_counterexample :
    GenPrime ⟨1, 1, 1, false⟩ 10 20 [] [[WorkerRes.err 8]]
      (Except.error (PrimeError.Timeout 1), []) ∧ (1 : Int) ≠ 8 := by
  constructor
  · apply GenPrime.timeout [WorkerRes.err 8]
    · rfl
    · intro r hr
      rw [List.mem_cons] at hr
      rcases hr with h | h
      · subst h
        show (1 : Int) < 8
        decide
      · simp at h
    · rfl
    · rfl
  · decide

theorem b64Char_props : ∀ i, i < 64 →
    b64Char i ≠ 10 ∧ b64Char i ≠ 45 ∧ b64Char i ≠ 61 ∧ graphic (b64Char i) = true := by
  decide

theorem b64CharVal_b64Char : ∀ i, i < 64 → b64CharVal (b64Char i) = some i := by
  decide

theorem b64encode_cons3 (a b c : Nat) (rest : List Nat) :
    b64encode (a :: b :: c :: rest) =
      b64Char (a / 4) :: b64Char (a % 4 * 16 + b / 16) ::
        b64Char (b % 16 * 4 + c / 64) :: b64Char (c % 64) :: b64encode rest := rfl

theorem b64decode_quad (v1 v2 v3 v4 : Nat) (rest tail : List Nat)
    (h1 : v1 < 64) (h2 : v2 < 64) (h3 : v3 < 64) (h4 : v4 < 64)
    (hrest : b64decode rest = some tail) :
    b64decode (b64Char v1 :: b64Char v2 :: b64Char v3 :: b64Char v4 :: rest) =
      some ((v1 * 4 + v2 / 16) :: (v2 % 16 * 16 + v3 / 4) ::
        (v3 % 4 * 64 + v4) :: tail) := by
  have e1 := b64CharVal_b64Char v1 h1
  have e2 := b64CharVal_b64Char v2 h2
  have e3 := b64CharVal_b64Char v3 h3
  have e4 := b64CharVal_b64Char v4 h4
  have n3 := (b64Char_props v3 h3).2.2.1
  have n4 := (b64Char_props v4 h4).2.2.1
  simp only [b64decode, e1, e2, e3, e4, n3, n4, hrest, false_and, if_false]

theorem b64decode_b64encode : ∀ (n : Nat) (l : List Nat), l.length = n →
    n % 3 = 0 → (∀ b ∈ l, b < 256) → b64decode (b64encode l) = some l := by
  intro n
  induction n using Nat.strong_induction_on with
  | _ n ih =>
    intro l hlen hmod hb
    match l with
    | [] => rfl
    | [a] =>
      rw [List.length_cons, List.length_nil] at hlen
      omega
    | [a, b] =>
      rw [List.length_cons, List.length_cons, List.length_nil] at hlen
      omega
    | a :: b :: c :: rest =>
      have hlr : rest.length = n - 3 := by
        rw [List.length_cons, List.length_cons, List.length_cons] at hlen
        omega
      have hn3 : 3 ≤ n := by
        rw [List.length_cons, List.length_cons, List.length_cons] at hlen
        omega
      have hrest : b64decode (b64encode rest) = some rest := by
        apply ih (n - 3) (by omega) rest hlr (by omega)
        intro x hx
        exact hb x (by simp [hx])
      have ha : a < 256 := hb a (by simp)
      have hbb : b < 256 := hb b (by simp)
      have hc : c < 256 := hb c (by simp)
      rw [b64encode_cons3]
      rw [b64decode_quad (a / 4) (a % 4 * 16 + b / 16) (b % 16 * 4 + c / 64) (c % 64)
        (b64encode rest) rest (by omega) (by omega) (by omega) (by omega) hrest]
      have g1 : a / 4 * 4 + (a % 4 * 16 + b / 16) / 16 = a := by omega
      have g2 : (a % 4 * 16 + b / 16) % 16 * 16 + (b % 16 * 4 + c / 64) / 4 = b := by
        omega
      have g3 : (b % 16 * 4 + c / 64) % 4 * 64 + c % 64 = c := by omega
      rw [g1, g2, g3]

theorem b64encode_aligned_mem : ∀ (n : Nat) (l : List Nat), l.length = n →
    n % 3 = 0 → (∀ b ∈ l, b < 256) → ∀ x ∈ b64encode l, ∃ i, i < 64 ∧ x = b64Char i := by
  intro n
  induction n using Nat.strong_induction_on with
  | _ n ih =>
    intro l hlen hmod hb x hx
    match l with
    | [] => simp [b64encode] at hx
    | [a] =>
      rw [List.length_cons, List.length_nil] at hlen
      omega
    | [a, b] =>
      rw [List.length_cons, List.length_cons, List.length_nil] at hlen
      omega
    | a :: b :: c :: rest =>
      have hlr : rest.length = n - 3 := by
        rw [List.length_cons, List.length_cons, List.length_cons] at hlen
        omega
      have hn3 : 3 ≤ n := by
        rw [List.length_cons, List.length_cons, List.length_cons] at hlen
        omega
      have ha : a < 256 := hb a (by simp)
      have hbb : b < 256 := hb b (by simp)
      have hc : c < 256 := hb c (by simp)
      rw [b64encode_cons3] at hx
      rw [List.mem_cons, List.mem_cons, List.mem_cons, List.mem_cons] at hx
      rcases hx with h | h | h | h | h
      · exact ⟨a / 4, by omega, h⟩
      · exact ⟨a % 4 * 16 + b / 16, by omega, h⟩
      · exact ⟨b % 16 * 4 + c / 64, by omega, h⟩
      · exact ⟨c % 64, by omega, h⟩
      · exact ih (n - 3) (by omega) rest hlr (by omega)
          (fun y hy => hb y (by simp [hy])) x h

theorem toLinesAux_step (f : Nat) (a : Nat) (t : List Nat) :
    toLinesAux (f + 1) (a :: t) =
      (a :: t).takeWhile (fun c => c ≠ 10) ::
        toLinesAux f (((a :: t).dropWhile (fun c => c ≠ 10)).drop 1) := rfl

theorem toLinesAux_step2 (f : Nat) (l : List Nat) (hne : l ≠ []) :
    toLinesAux (f + 1) l =
      l.takeWhile (fun c => c ≠ 10) ::
        toLinesAux f ((l.dropWhile (fun c => c ≠ 10)).drop 1) := by
  cases l with
  | nil => exact absurd rfl hne
  | cons a t => rfl

theorem toLinesAux_congr : ∀ (f1 : Nat), ∀ (f2 : Nat) (l : List Nat),
    l.length ≤ f1 → l.length ≤ f2 → toLinesAux f1 l = toLinesAux f2 l := by
  intro f1
  induction f1 using Nat.strong_induction_on with
  | _ f1 ih =>
    intro f2 l h1 h2
    cases l with
    | nil =>
      cases f1 with
      | zero =>
        cases f2 with
        | zero => rfl
        | succ g2 => rfl
      | succ g1 =>
        cases f2 with
        | zero => rfl
        | succ g2 => rfl
    | cons a t =>
      rw [List.length_cons] at h1 h2
      match f1, h1 with
      | g1 + 1, h1 =>
        match f2, h2 with
        | g2 + 1, h2 =>
          rw [toLinesAux_step, toLinesAux_step]
          congr 1
          have hd : (((a :: t).dropWhile (fun c => c ≠ 10)).drop 1).length ≤ t.length := by
            rw [List.length_drop]
            have hw : ((a :: t).dropWhile (fun c => decide (c ≠ 10))).length ≤
                (a :: t).length := List.Sublist.length_le (List.dropWhile_sublist _)
            rw [List.length_cons] at hw
            omega
          exact ih g1 (by omega) g2 _ (by omega) (by omega)

theorem takeWhile_append_gen (p : Nat → Bool) (x rest : List Nat)
    (hx : ∀ c ∈ x, p c = true) (h10 : p 10 = false) :
    (x ++ 10 :: rest).takeWhile p = x := by
  induction x with
  | nil =>
    rw [List.nil_append, List.takeWhile_cons, h10, if_neg (by simp)]
  | cons a t ih =>
    rw [List.cons_append, List.takeWhile_cons, hx a (by simp), if_pos rfl,
      ih (fun c hc => hx c (by simp [hc]))]

theorem dropWhile_append_gen (p : Nat → Bool) (x rest : List Nat)
    (hx : ∀ c ∈ x, p c = true) (h10 : p 10 = false) :
    (x ++ 10 :: rest).dropWhile p = 10 :: rest := by
  induction x with
  | nil =>
    rw [List.nil_append, List.dropWhile_cons, h10, if_neg (by simp)]
  | cons a t ih =>
    rw [List.cons_append, List.dropWhile_cons, hx a (by simp), if_pos rfl,
      ih (fun c hc => hx c (by simp [hc]))]

theorem toLines_cons_line (x rest : List Nat) (hx : ∀ c ∈ x, c ≠ 10) :
    toLines (x ++ 10 :: rest) = x :: toLines rest := by
  unfold toLines
  have hl : (x ++ 10 :: rest).length = x.length + rest.length + 1 := by
    rw [List.length_append, List.length_cons]
    omega
  rw [hl, toLinesAux_step2 _ _ (by simp)]
  rw [takeWhile_append_gen (fun c => decide (c ≠ 10)) x rest
    (fun c hc => by simp [hx c hc]) (by simp)]
  rw [dropWhile_append_gen (fun c => decide (c ≠ 10)) x rest
    (fun c hc => by simp [hx c hc]) (by simp)]
  rw [List.drop_one, List.tail_cons]
  congr 1
  exact toLinesAux_congr (x.length + rest.length) rest.length rest (by omega) le_rfl

theorem toLines_last (x : List Nat) (hx : ∀ c ∈ x, c ≠ 10) (hne : x ≠ []) :
    toLines x = [x] := by
  unfold toLines
  cases hxl : x.length with
  | zero => exact absurd (List.eq_nil_of_length_eq_zero hxl) hne
  | succ g =>
    rw [toLinesAux_step2 _ _ hne]
    have ht : x.takeWhile (fun c => decide (c ≠ 10)) = x :=
      List.takeWhile_eq_self_iff.mpr (fun c hc => by simp [hx c hc])
    have hdnil : x.dropWhile (fun c => decide (c ≠ 10)) = [] :=
      List.dropWhile_eq_nil_iff.mpr (fun c hc => by simp [hx c hc])
    rw [ht, hdnil, List.drop_nil]
    cases g with
    | zero => rfl
    | succ gg => rfl

theorem toLines_chunks : ∀ (chunks : List (List Nat)) (F : List Nat),
    (∀ l ∈ chunks, ∀ c ∈ l, c ≠ 10) → (∀ c ∈ F, c ≠ 10) → F ≠ [] →
    toLines ((chunks.map (fun l => l ++ [10])).flatten ++ F) = chunks ++ [F] := by
  intro chunks
  induction chunks with
  | nil =>
    intro F hch hF hne
    rw [List.map_nil, List.flatten_nil, List.nil_append, List.nil_append]
    exact toLines_last F hF hne
  | cons ch t ih =>
    intro F hch hF hne
    rw [List.map_cons, List.flatten_cons]
    have hassoc : (ch ++ [10]) ++ ((t.map (fun l => l ++ [10])).flatten ++ F) =
        ch ++ 10 :: ((t.map (fun l => l ++ [10])).flatten ++ F) := by
      rw [List.append_assoc, List.singleton_append]
    rw [List.append_assoc, hassoc]
    rw [toLines_cons_line _ _ (hch ch (by simp))]
    rw [ih F (fun l hl => hch l (by simp [hl])) hF hne]
    rfl

theorem parseLines_data : ∀ (chunks : List (List Nat)) (res hdr ftr : List Nat),
    (∀ l ∈ chunks, l.head? ≠ some 45) →
    parseLines chunks (res, hdr, ftr) = (res ++ chunks.flatten, hdr, ftr) := by
  intro chunks
  induction chunks with
  | nil =>
    intro res hdr ftr hch
    rw [List.flatten_nil, List.append_nil]
    rfl
  | cons ch t ih =>
    intro res hdr ftr hch
    show (if ch.head? = some 45 then
        if hasEND ch then parseLines t (res, hdr, ch)
        else parseLines t (res, ch, ftr)
      else parseLines t (res ++ ch, hdr, ftr)) = _
    rw [if_neg (hch ch (by simp))]
    rw [ih (res ++ ch) hdr ftr (fun l hl => hch l (by simp [hl]))]
    rw [List.flatten_cons, List.append_assoc]

theorem parseLines_header_body (H F : List Nat) (chunks : List (List Nat))
    (hH45 : H.head? = some 45) (hHend : hasEND H = false)
    (hch : ∀ l ∈ chunks, l.head? ≠ some 45)
    (hF45 : F.head? = some 45) (hFend : hasEND F = true) :
    parseLines (H :: (chunks ++ [F])) ([], [], []) = (chunks.flatten, H, F) := by
  show (if H.head? = some 45 then
      if hasEND H then parseLines (chunks ++ [F]) ([], [], H)
      else parseLines (chunks ++ [F]) ([], H, [])
    else parseLines (chunks ++ [F]) ([] ++ H, [], [])) = _
  rw [if_pos hH45, hHend]
  rw [show (if false = true then parseLines (chunks ++ [F]) ([], [], H)
      else parseLines (chunks ++ [F]) ([], H, [])) =
    parseLines (chunks ++ [F]) ([], H, []) from by rw [if_neg (by simp)]]
  have happ : ∀ (st : List Nat × List Nat × List Nat),
      parseLines (chunks ++ [F]) st = parseLines [F] (parseLines chunks st) := by
    intro st
    induction chunks generalizing st with
    | nil => rfl
    | cons ch t ih2 =>
      rw [List.cons_append]
      show parseLines (ch :: (t ++ [F])) st = _
      match st with
      | (res, hdr, ftr) =>
        show (if ch.head? = some 45 then
            if hasEND ch then parseLines (t ++ [F]) (res, hdr, ch)
            else parseLines (t ++ [F]) (res, ch, ftr)
          else parseLines (t ++ [F]) (res ++ ch, hdr, ftr)) = _
        by_cases h45 : ch.head? = some 45
        · rw [if_pos h45]
          by_cases hend : hasEND ch
          · rw [if_pos hend, ih2 (fun l hl => hch l (by simp [hl]))]
            congr 1
            show _ = (if ch.head? = some 45 then
                if hasEND ch then parseLines t (res, hdr, ch)
                else parseLines t (res, ch, ftr)
              else parseLines t (res ++ ch, hdr, ftr))
            rw [if_pos h45, if_pos hend]
          · rw [if_neg hend, ih2 (fun l hl => hch l (by simp [hl]))]
            congr 1
            show _ = (if ch.head? = some 45 then
                if hasEND ch then parseLines t (res, hdr, ch)
                else parseLines t (res, ch, ftr)
              else parseLines t (res ++ ch, hdr, ftr))
            rw [if_pos h45, if_neg hend]
        · rw [if_neg h45, ih2 (fun l hl => hch l (by simp [hl]))]
          congr 1
          show _ = (if ch.head? = some 45 then
              if hasEND ch then parseLines t (res, hdr, ch)
              else parseLines t (res, ch, ftr)
            else parseLines t (res ++ ch, hdr, ftr))
          rw [if_neg h45]
  rw [happ, parseLines_data chunks [] H [] hch]
  show (if F.head? = some 45 then
      if hasEND F then parseLines [] ([] ++ chunks.flatten, H, F)
      else parseLines [] ([] ++ chunks.flatten, F, [])
    else parseLines [] (([] ++ chunks.flatten) ++ F, H, [])) = _
  rw [if_pos hF45, hFend]
  show parseLines [] ([] ++ chunks.flatten, H, F) = _
  rw [List.nil_append]
  rfl

theorem splitBlocks_mem_mem (g : Nat) (s : List Nat) (blk : List Nat)
    (hblk : blk ∈ splitBlocks g s) (x : Nat) (hx : x ∈ blk) : x ∈ s := by
  rw [← splitBlocks_flatten g s]
  exact List.mem_flatten.mpr ⟨blk, hblk, hx⟩

theorem mode7_length (mode : List Nat) : (mode7 mode).length = 7 := by
  unfold mode7
  rw [List.length_append, List.length_replicate]
  have h := List.length_take 7 mode
  omega

theorem keyFromContent_raw (bs ms md cmt : List Nat) (hdr ftr : List Nat)
    (hlb : bs.length < 2 ^ 32) (hlm : ms.length < 2 ^ 32) (hmd : md.length = 7) :
    keyFromContent (leBytes 4 bs.length ++ (leBytes 4 ms.length ++
      (bs ++ (ms ++ (md ++ cmt))))) hdr ftr =
      some ⟨md, cmt, fromBytesLE bs, fromBytesLE ms, hdr, ftr⟩ := by
  unfold keyFromContent
  have e1 : (leBytes 4 bs.length ++ (leBytes 4 ms.length ++
      (bs ++ (ms ++ (md ++ cmt))))).take 4 = leBytes 4 bs.length :=
    List.take_left' (leBytes_length 4 _)
  have e2 : (leBytes 4 bs.length ++ (leBytes 4 ms.length ++
      (bs ++ (ms ++ (md ++ cmt))))).drop 4 =
      leBytes 4 ms.length ++ (bs ++ (ms ++ (md ++ cmt))) :=
    List.drop_left' (leBytes_length 4 _)
  have e4 : (leBytes 4 bs.length ++ (leBytes 4 ms.length ++
      (bs ++ (ms ++ (md ++ cmt))))).drop 8 = bs ++ (ms ++ (md ++ cmt)) := by
    rw [show (8:Nat) = 4 + 4 from rfl, ← List.drop_drop, e2]
    exact List.drop_left' (leBytes_length 4 _)
  rw [e1, e2, e4]
  rw [List.take_left' (leBytes_length 4 ms.length)]
  have hfb : fromBytesLE (leBytes 4 bs.length) = bs.length := by
    rw [fromBytesLE_leBytes]
    exact Nat.mod_eq_of_lt (by norm_num; omega)
  have hfm : fromBytesLE (leBytes 4 ms.length) = ms.length := by
    rw [fromBytesLE_leBytes]
    exact Nat.mod_eq_of_lt (by norm_num; omega)
  rw [hfb, hfm]
  have e5 : (bs ++ (ms ++ (md ++ cmt))).drop (bs.length + ms.length) = md ++ cmt := by
    rw [← List.drop_drop, List.drop_left' rfl, List.drop_left' rfl]
  have e6 : (bs ++ (ms ++ (md ++ cmt))).drop (bs.length + ms.length + 7) = cmt := by
    rw [← List.drop_drop, e5, List.drop_left' hmd]
  rw [if_pos (by
    rw [List.length_append, List.length_append, List.length_append]
    omega)]
  rw [e5, e6, List.take_left' hmd]
  rw [List.take_left' rfl]
  rw [List.drop_left' rfl]
  rw [List.take_left' rfl]
  rw [hmd, Nat.sub_self, List.replicate_zero, List.append_nil]

theorem keyPayload_shape (k : KeyDataM) :
    keyPayload k = leBytes 4 (toBytesLE k.base).length ++
      (leBytes 4 (toBytesLE k.m).length ++
        (toBytesLE k.base ++ (toBytesLE k.m ++ (mode7 k.mode ++ k.comment)))) := by
  simp [keyPayload, List.append_assoc]

theorem keyFromContent_keyPayload (k : KeyDataM) (hdr ftr : List Nat)
    (hlb : (toBytesLE k.base).length < 2 ^ 32)
    (hlm : (toBytesLE k.m).length < 2 ^ 32) :
    keyFromContent (keyPayload k) hdr ftr =
      some ⟨mode7 k.mode, k.comment, k.base, k.m, hdr, ftr⟩ := by
  rw [keyPayload_shape,
    keyFromContent_raw _ _ _ _ hdr ftr hlb hlm (mode7_length k.mode),
    fromBytesLE_toBytesLE, fromBytesLE_toBytesLE]

theorem take_append_right (l1 l2 : List Nat) (r : Nat) (hr : r ≤ l2.length) :
    (l1 ++ l2).take ((l1 ++ l2).length - r) = l1 ++ l2.take (l2.length - r) := by
  rw [List.length_append, List.take_append_eq_append_take]
  rw [List.take_of_length_le (by omega)]
  congr 2
  omega

theorem keyPayload_comment (k : KeyDataM) (cmt2 : List Nat) :
    keyPayload ⟨k.mode, cmt2, k.base, k.m, k.header, k.footer⟩ =
      leBytes 4 (toBytesLE k.base).length ++
        (leBytes 4 (toBytesLE k.m).length ++
          (toBytesLE k.base ++ (toBytesLE k.m ++ (mode7 k.mode ++ cmt2)))) := by
  simp [keyPayload, List.append_assoc]

theorem keyPayload_take (k : KeyDataM) (r : Nat) (hr : r ≤ k.comment.length) :
    (keyPayload k).take ((keyPayload k).length - r) =
      keyPayload ⟨k.mode, k.comment.take (k.comment.length - r),
        k.base, k.m, k.header, k.footer⟩ := by
  have hshape2 : keyPayload k =
      (leBytes 4 (toBytesLE k.base).length ++
        (leBytes 4 (toBytesLE k.m).length ++
          (toBytesLE k.base ++ (toBytesLE k.m ++ mode7 k.mode)))) ++ k.comment := by
    simp [keyPayload, List.append_assoc]
  rw [hshape2, take_append_right _ _ r hr, keyPayload_comment]
  simp [List.append_assoc]

theorem keyPayload_mem_lt (k : KeyDataM) (hmd : ∀ b ∈ k.mode, b < 256)
    (hc : ∀ b ∈ k.comment, b < 256) : ∀ b ∈ keyPayload k, b < 256 := by
  intro b hb
  rw [keyPayload_shape] at hb
  rw [List.mem_append] at hb
  rcases hb with hb | hb
  · exact leBytes_mem_lt 4 _ b hb
  rw [List.mem_append] at hb
  rcases hb with hb | hb
  · exact leBytes_mem_lt 4 _ b hb
  rw [List.mem_append] at hb
  rcases hb with hb | hb
  · exact toBytesLE_mem_lt _ b hb
  rw [List.mem_append] at hb
  rcases hb with hb | hb
  · exact toBytesLE_mem_lt _ b hb
  rw [List.mem_append] at hb
  rcases hb with hb | hb
  · unfold mode7 at hb
    rw [List.mem_append] at hb
    rcases hb with hb | hb
    · exact hmd b (List.mem_of_mem_take hb)
    · rw [List.eq_of_mem_replicate hb]
      omega
  · exact hc b hb

/-- Binary-mode save/load round trip: the payload's first four bytes
are the little-endian base length, whose high byte is zero, so
`judge_binary` classifies the file as binary and the payload parses
back; the reader leaves `header`/`footer` empty and the role tag comes
back as the zero-padded 7-byte buffer. -/
theorem keyFromFile_save_binary (k : KeyDataM)
    (hlb : (toBytesLE k.base).length < 2 ^ 24)
    (hlm : (toBytesLE k.m).length < 2 ^ 32) :
    keyFromFile (save k false) =
      some ⟨mode7 k.mode, k.comment, k.base, k.m, [], []⟩ := by
  show keyFromFile (keyPayload k) = _
  unfold keyFromFile
  have hlen : (keyPayload k).length =
      4 + (4 + ((toBytesLE k.base).length + ((toBytesLE k.m).length +
        (7 + k.comment.length)))) := by
    rw [keyPayload_shape, List.length_append, List.length_append,
      List.length_append, List.length_append, List.length_append,
      leBytes_length, leBytes_length, mode7_length]
  rw [if_neg (by omega)]
  have htake : (keyPayload k).take 4 = leBytes 4 (toBytesLE k.base).length := by
    rw [keyPayload_shape]
    exact List.take_left' (leBytes_length 4 _)
  have hle : leBytes 4 (toBytesLE k.base).length =
      [(toBytesLE k.base).length % 256, (toBytesLE k.base).length / 256 % 256,
       (toBytesLE k.base).length / 256 / 256 % 256,
       (toBytesLE k.base).length / 256 / 256 / 256 % 256] := rfl
  have hzero : (toBytesLE k.base).length / 256 / 256 / 256 % 256 = 0 := by omega
  have hgr : ((keyPayload k).take 4).all graphic = false := by
    rw [htake, hle, hzero]
    rw [List.all_cons, List.all_cons, List.all_cons, List.all_cons]
    rw [show graphic 0 = false from rfl]
    simp
  rw [hgr]
  rw [if_neg (by simp)]
  exact keyFromContent_keyPayload k [] [] (by omega) hlm

theorem keyFromFile_text (file res hdr ftr content : List Nat)
    (h4 : ¬ file.length < 4) (hgr : (file.take 4).all graphic = true)
    (hparse : parse_text file = (res, hdr, ftr))
    (hdec : b64decode res = some content) :
    keyFromFile file = keyFromContent content hdr ftr := by
  unfold keyFromFile
  rw [if_neg h4, hgr, if_pos rfl, hparse]
  show (match b64decode res with
    | some content => keyFromContent content hdr ftr
    | none => none) = _
  rw [hdec]

/-- Base64-mode save/load round trip: the generated header makes
`judge_binary` classify the file as text, the header and footer lines
are captured, the base64 body decodes back to the payload *truncated
to a multiple of three bytes* (the `EncoderWriter`'s residual bytes
are flushed only after the file is written), so the final
`payload.length mod 3` bytes of the comment are lost. -/
theorem keyFromFile_save_base64 (k : KeyDataM)
    (hhf : k.header = [] ∧ k.footer = [])
    (hmode : k.mode = strBytes "PUBLIC_" ∨ k.mode = strBytes "PRIVATE")
    (hcb : ∀ b ∈ k.comment, b < 256)
    (hlb : (toBytesLE k.base).length < 2 ^ 32)
    (hlm : (toBytesLE k.m).length < 2 ^ 32)
    (hr : (keyPayload k).length % 3 ≤ k.comment.length) :
    keyFromFile (save k true) =
      some ⟨mode7 k.mode,
        k.comment.take (k.comment.length - (keyPayload k).length % 3),
        k.base, k.m, generate_header k.mode, generate_footer k.mode⟩ := by
  have hH : effHeader k = generate_header k.mode := by
    unfold effHeader
    rw [if_pos hhf]
  have hF : effFooter k = generate_footer k.mode := by
    unfold effFooter
    rw [if_pos hhf]
  have hmodeb : ∀ b ∈ k.mode, b < 256 := by
    rcases hmode with hm | hm <;> rw [hm] <;> decide
  have hH10 : ∀ c ∈ generate_header k.mode, c ≠ 10 := by
    rcases hmode with hm | hm <;> rw [hm] <;> decide
  have hH45 : (generate_header k.mode).head? = some 45 := by
    rcases hmode with hm | hm <;> rw [hm] <;> decide
  have hHend : hasEND (generate_header k.mode) = false := by
    rcases hmode with hm | hm <;> rw [hm] <;> decide
  have hHlen : 4 ≤ (generate_header k.mode).length := by
    rcases hmode with hm | hm <;> rw [hm] <;> decide
  have hHgr : ((generate_header k.mode).take 4).all graphic = true := by
    rcases hmode with hm | hm <;> rw [hm] <;> decide
  have hF10 : ∀ c ∈ generate_footer k.mode, c ≠ 10 := by
    rcases hmode with hm | hm <;> rw [hm] <;> decide
  have hF45 : (generate_footer k.mode).head? = some 45 := by
    rcases hmode with hm | hm <;> rw [hm] <;> decide
  have hFendT : hasEND (generate_footer k.mode) = true := by
    rcases hmode with hm | hm <;> rw [hm] <;> decide
  have hFne : generate_footer k.mode ≠ [] := by
    rcases hmode with hm | hm <;> rw [hm] <;> decide
  have hptlen : ((keyPayload k).take (3 * ((keyPayload k).length / 3))).length =
      3 * ((keyPayload k).length / 3) := by
    rw [List.length_take]
    omega
  have hptmod : ((keyPayload k).take (3 * ((keyPayload k).length / 3))).length % 3 = 0 := by
    rw [hptlen]
    omega
  have hptbytes : ∀ b ∈ (keyPayload k).take (3 * ((keyPayload k).length / 3)), b < 256 :=
    fun b hb => keyPayload_mem_lt k hmodeb hcb b (List.mem_of_mem_take hb)
  have hdec : b64decode (b64encode ((keyPayload k).take (3 * ((keyPayload k).length / 3)))) =
      some ((keyPayload k).take (3 * ((keyPayload k).length / 3))) :=
    b64decode_b64encode _ _ rfl hptmod hptbytes
  have hencmem := b64encode_aligned_mem _
    ((keyPayload k).take (3 * ((keyPayload k).length / 3))) rfl hptmod hptbytes
  have hch10 : ∀ l ∈ splitBlocks 70
      (b64encode ((keyPayload k).take (3 * ((keyPayload k).length / 3)))),
      ∀ c ∈ l, c ≠ 10 := by
    intro l hl c hc
    obtain ⟨i, hi, hci⟩ := hencmem c (splitBlocks_mem_mem 70 _ l hl c hc)
    rw [hci]
    exact (b64Char_props i hi).1
  have hch45 : ∀ l ∈ splitBlocks 70
      (b64encode ((keyPayload k).take (3 * ((keyPayload k).length / 3)))),
      l.head? ≠ some 45 := by
    intro l hl h45
    have h45m : 45 ∈ l := List.mem_of_mem_head? (show 45 ∈ l.head? from h45)
    obtain ⟨i, hi, hci⟩ := hencmem 45 (splitBlocks_mem_mem 70 _ l hl 45 h45m)
    exact (b64Char_props i hi).2.1 hci.symm
  have hfile : save_base64 k = generate_header k.mode ++
      (10 :: (((splitBlocks 70 (b64encode ((keyPayload k).take
        (3 * ((keyPayload k).length / 3))))).map (fun l => l ++ [10])).flatten ++
        generate_footer k.mode)) := by
    unfold save_base64
    rw [hH, hF]
    simp [List.append_assoc]
  have hflen : ¬ (save k true).length < 4 := by
    show ¬ (save_base64 k).length < 4
    rw [hfile, List.length_append]
    omega
  have hfgr : ((save k true).take 4).all graphic = true := by
    show ((save_base64 k).take 4).all graphic = true
    rw [hfile, List.take_append_eq_append_take,
      show 4 - (generate_header k.mode).length = 0 from by omega,
      List.take_zero, List.append_nil]
    exact hHgr
  have hparse : parse_text (save k true) =
      (b64encode ((keyPayload k).take (3 * ((keyPayload k).length / 3))),
        generate_header k.mode, generate_footer k.mode) := by
    show parse_text (save_base64 k) = _
    unfold parse_text
    rw [hfile, toLines_cons_line _ _ hH10, toLines_chunks _ _ hch10 hF10 hFne,
      parseLines_header_body _ _ _ hH45 hHend hch45 hF45 hFendT,
      splitBlocks_flatten]
  rw [keyFromFile_text (save k true) _ _ _ _ hflen hfgr hparse hdec]
  have h3 : 3 * ((keyPayload k).length / 3) =
      (keyPayload k).length - (keyPayload k).length % 3 := by
    omega
  rw [h3, keyPayload_take k _ hr,
    keyFromContent_keyPayload
      ⟨k.mode, k.comment.take (k.comment.length - (keyPayload k).length % 3),
        k.base, k.m, k.header, k.footer⟩
      (generate_header k.mode) (generate_footer k.mode) hlb hlm]

/-- Amended claim C8: the save/load round trip holds in raw-binary
mode (with the reader leaving `header`/`footer` empty and the role tag
zero-padded to 7 bytes); in base64 mode the base, modulus, role tag,
header and footer survive, but the comment comes back truncated by
`payload.length mod 3` bytes, because the `EncoderWriter` flushes its
residual group only after the file contents were written. -/
theorem c8_save_load_amended (k : KeyDataM)
    (hhf : k.header = [] ∧ k.footer = [])
    (hmode : k.mode = strBytes "PUBLIC_" ∨ k.mode = strBytes "PRIVATE")
    (hcb : ∀ b ∈ k.comment, b < 256)
    (hlb : (toBytesLE k.base).length < 2 ^ 24)
    (hlm : (toBytesLE k.m).length < 2 ^ 32)
    (hr : (keyPayload k).length % 3 ≤ k.comment.length) :
    keyFromFile (save k false) =
      some ⟨mode7 k.mode, k.comment, k.base, k.m, [], []⟩ ∧
    keyFromFile (save k true) =
      some ⟨mode7 k.mode,
        k.comment.take (k.comment.length - (keyPayload k).length % 3),
        k.base, k.m, generate_header k.mode, generate_footer k.mode⟩ :=
  ⟨keyFromFile_save_binary k hlb hlm,
   keyFromFile_save_base64 k hhf hmode hcb (by omega) hlm hr⟩

theorem c8_save_load_amended_witness :
    keyFromFile (save ⟨strBytes "PUBLIC_", [67, 68, 69], 5, 7, [], []⟩ false) =
      some ⟨mode7 (strBytes "PUBLIC_"), [67, 68, 69], 5, 7, [], []⟩ ∧
    keyFromFile (save ⟨strBytes "PUBLIC_", [67, 68, 69], 5, 7, [], []⟩ true) =
      some ⟨mode7 (strBytes "PUBLIC_"),
        ([67, 68, 69] : List Nat).take (([67, 68, 69] : List Nat).length -
          (keyPayload ⟨strBytes "PUBLIC_", [67, 68, 69], 5, 7, [], []⟩).length % 3),
        5, 7, generate_header (strBytes "PUBLIC_"),
        generate_footer (strBytes "PUBLIC_")⟩ :=
  c8_save_load_amended ⟨strBytes "PUBLIC_", [67, 68, 69], 5, 7, [], []⟩
    ⟨rfl, rfl⟩ (Or.inl rfl) (by decide) (by decide) (by decide) (by decide)

/-- Counterexample to claim C8 as stated: in base64 mode the comment
does not survive the round trip.  Saving the key
`(base 1, m 1, mode "PUBLIC_", comment "AB")` and loading the file
back returns comment "A": the 19-byte payload is written to the file
truncated to 18 bytes, because the base64 `EncoderWriter` still holds
the last byte when the file is flushed. -/
theorem c8_claim_counterexample :
    keyFromFile (save ⟨strBytes "PUBLIC_", [65, 66], 1, 1, [], []⟩ true) =
      some ⟨strBytes "PUBLIC_", [65], 1, 1,
        strBytes "-----BEGIN RSA-RS PUBLIC_ KEY-----",
        strBytes "-----END RSA-RS PUBLIC_ KEY-----"⟩ ∧
    ([65] : List Nat) ≠ [65, 66] := by
  refine ⟨by decide, by decide⟩
